import Mathlib

/-!
Verification of the FFT match-sheet extractor (`extract_fft_pdf_to_excel.py`).

Python strings are modelled as `List Char`.  The regular expressions of the
source are modelled by a small backtracking engine (`mre`) that mirrors the
backtracking/alternation-order/laziness semantics of Python's `re` module on
the constructs those patterns use.  Unicode-sensitive character classes
(`\s`, `\w`, `\d`, case folding) are modelled by explicit character sets that
agree with CPython on the characters the program manipulates (ASCII plus the
non-breaking space and the whitespace controls); `Char.toLower` is the ASCII
case folding.
-/

/-- Python whitespace (`\s` for `str` patterns, and the set used by
`str.strip()` / `str.isspace()`): space, TAB, LF, VT, FF, CR, the
file/group/record/unit separators, NEL, NBSP and the Unicode spaces. -/
def isSpc (c : Char) : Bool :=
  c = ' ' || c = '\t' || c = '\n' || c = '\u000B' || c = '\u000C' || c = '\r' ||
  c = '\u001C' || c = '\u001D' || c = '\u001E' || c = '\u001F' ||
  c = '\u0085' || c = ' ' || c = ' ' ||
  (' ' ≤ c && c ≤ ' ') ||
  c = ' ' || c = ' ' || c = ' ' || c = ' ' || c = '　'

/-- Line-break characters recognised by Python's `str.splitlines`. -/
def isLB (c : Char) : Bool :=
  c = '\n' || c = '\r' || c = '\u000B' || c = '\u000C' ||
  c = '\u001C' || c = '\u001D' || c = '\u001E' ||
  c = '\u0085' || c = ' ' || c = ' '

/-- ASCII decimal digit (model of `[0-9]`, and the ASCII core of `\d`). -/
def isDig (c : Char) : Bool := '0' ≤ c && c ≤ '9'

/-- Word character for `\b` (ASCII core of Python's `\w`). -/
def isWordC (c : Char) : Bool := c.isAlphanum || c = '_'

/-- Python `str.strip()` from the left. -/
def dropSpc (l : List Char) : List Char := l.dropWhile (fun c => isSpc c)

/-- Python `str.strip()`: drop whitespace at both ends. -/
def pyStrip (l : List Char) : List Char := ((dropSpc l).reverse |> dropSpc).reverse

mutual

/-- Python `str.splitlines`, accumulator-style helper (`cur` is the current
line, reversed). -/
def splitLinesGo (cur : List Char) : List Char → List (List Char)
  | [] => if cur.isEmpty then [] else [cur.reverse]
  | c :: cs =>
    if c = '\r' then cur.reverse :: splitLinesGoCR cs
    else if isLB c then cur.reverse :: splitLinesGo [] cs
    else splitLinesGo (c :: cur) cs

/-- Helper of `splitLinesGo`: a `'\r'` was just consumed, so a `'\n'`
directly after it belongs to the same CRLF break. -/
def splitLinesGoCR : List Char → List (List Char)
  | [] => []
  | c :: cs =>
    if c = '\n' then splitLinesGo [] cs
    else if c = '\r' then [] :: splitLinesGoCR cs
    else if isLB c then [] :: splitLinesGo [] cs
    else splitLinesGo [c] cs

end

/-- Python `text.splitlines()`. -/
def splitLines (l : List Char) : List (List Char) := splitLinesGo [] l

/-! ## The Text Normalizer (`clean_text`, source lines 53–60)

Each `re.sub` of the source becomes one total scanner over the character
list, with the leftmost-then-greedy replacement semantics of `re.sub`. -/

/-- Step 1 of `clean_text`: `text.replace(" ", " ")`. -/
def repNbsp (l : List Char) : List Char :=
  l.map (fun c => if c = ' ' then ' ' else c)

mutual

/-- Step 2 of `clean_text`: `re.sub(r"[\t\r]+", " ", text)` — every maximal
run of TAB/CR characters becomes one space. -/
def subTC : List Char → List Char
  | [] => []
  | c :: cs => if c = '\t' || c = '\r' then ' ' :: subTCskip cs else c :: subTC cs

/-- Helper of `subTC`: inside a `[\t\r]+` run. -/
def subTCskip : List Char → List Char
  | [] => []
  | c :: cs => if c = '\t' || c = '\r' then subTCskip cs else c :: subTC cs

end

/-- Replacement applied by `re.sub(r"\s+\n", "\n", ·)` to one maximal
whitespace run: the (leftmost, greedy) match ends at the last `'\n'` of the
run, provided that newline is not the run's first character; the matched part
becomes a single `'\n'` and the run's tail after its last newline is kept. -/
def sub3emit (run : List Char) : List Char :=
  if (run.drop 1).contains '\n' then
    '\n' :: (run.reverse.takeWhile (fun c => c ≠ '\n')).reverse
  else run

mutual

/-- Step 3 of `clean_text`: `re.sub(r"\s+\n", "\n", text)`. -/
def sub3 : List Char → List Char
  | [] => []
  | c :: cs => if isSpc c then sub3run [c] cs else c :: sub3 cs

/-- Helper of `sub3`: `acc` is the whitespace run read so far, reversed. -/
def sub3run (acc : List Char) : List Char → List Char
  | [] => sub3emit acc.reverse
  | c :: cs =>
    if isSpc c then sub3run (c :: acc) cs
    else sub3emit acc.reverse ++ c :: sub3 cs

end

mutual

/-- Step 4 of `clean_text`: `re.sub(r"\n\s+", "\n", text)` — a newline
followed by whitespace keeps only the newline (the greedy `\s+` eats the
whole following whitespace run). -/
def sub4 : List Char → List Char
  | [] => []
  | c :: cs => if c = '\n' then '\n' :: sub4skip cs else c :: sub4 cs

/-- Helper of `sub4`: discard the whitespace run following a newline. -/
def sub4skip : List Char → List Char
  | [] => []
  | c :: cs => if isSpc c then sub4skip cs else c :: sub4 cs

end

mutual

/-- Step 5 of `clean_text`: `re.sub(r"\s{2,}", " ", text)` — every maximal
whitespace run of length at least two becomes one space; single whitespace
characters are kept as they are. -/
def sub5 : List Char → List Char
  | [] => []
  | c :: cs => if isSpc c then sub5run c cs else c :: sub5 cs

/-- Helper of `sub5`: `c` is a whitespace character already read; decide
whether its run has length one (keep `c`) or at least two (emit `' '`). -/
def sub5run (c : Char) : List Char → List Char
  | [] => [c]
  | d :: ds =>
    if isSpc d then ' ' :: sub5skip ds
    else c :: d :: sub5 ds

/-- Helper of `sub5`: inside a run already replaced by a space. -/
def sub5skip : List Char → List Char
  | [] => []
  | d :: ds => if isSpc d then sub5skip ds else d :: sub5 ds

end

/-- The Text Normalizer `clean_text` (source lines 53–60): NBSP→space,
TAB/CR runs→space, whitespace stripped before and after newlines, multiple
whitespace collapsed, ends trimmed. -/
def clean_text (l : List Char) : List Char :=
  pyStrip (sub5 (sub4 (sub3 (subTC (repNbsp l)))))

/-! ## A backtracking regex engine

The engine reproduces, for the constructs used by the source's five
patterns, the attempt order of Python's `re`: ordered alternation, greedy
repetition longest first, lazy repetition shortest first, full backtracking
through a continuation.  `^` at the start of every source pattern and the
final `$` are handled by the drivers `tryAtEol` / `searchML`. -/

/-- Character classes occurring in the source's patterns. -/
inductive CC where
  | digit : CC
  | wsp : CC
  | anyNoNL : CC
  | inSet : List Char → CC
  deriving DecidableEq, Repr

/-- Membership in a character class (`.` does not match a newline). -/
def CC.mem : CC → Char → Bool
  | .digit, c => isDig c
  | .wsp, c => isSpc c
  | .anyNoNL, c => c ≠ '\n'
  | .inSet l, c => l.contains c

/-- Regular expressions as used by the source's patterns: literal strings
(with a case-insensitivity flag), classes, concatenation, ordered
alternation, greedy option, greedy and lazy star, numbered capture
groups. -/
inductive RE where
  | eps : RE
  | cc : CC → RE
  | str : List Char → Bool → RE
  | seq : RE → RE → RE
  | alt : RE → RE → RE
  | optG : RE → RE
  | starG : RE → RE
  | starL : RE → RE
  | grp : Nat → RE → RE
  deriving DecidableEq, Repr

/-- Character comparison of a literal: exact, or ASCII case folding when
`ci` is set. -/
def chEq (ci : Bool) (a c : Char) : Bool :=
  if ci then a.toLower = c.toLower else a = c

/-- Match a literal string at the head of the input (case-insensitively when
`ci` is set), returning the rest. -/
def strChomp (s : List Char) (ci : Bool) (cs : List Char) : Option (List Char) :=
  match s, cs with
  | [], rest => some rest
  | _ :: _, [] => none
  | a :: s2, c :: cs2 =>
    if chEq ci a c then strChomp s2 ci cs2 else none

/-- Capture groups recorded so far, most recent binding first. -/
abbrev Groups := List (Nat × List Char)

/-- Continuations of the matcher. -/
abbrev MCont (σ : Type) := List Char → Groups → Option σ

/-- The backtracking matcher.  `mre fuel r cs gs k` tries every way of
matching `r` against a prefix of `cs`, in Python's attempt order, and calls
the continuation `k` on the rest of the input and the extended capture list;
the first attempt on which `k` succeeds wins.  `fuel` bounds the recursion
depth and is chosen amply by the drivers.  The length guard inside the star
cases is `re`'s protection against empty repetition steps (every starred
subpattern of the source consumes input, so it never fires there). -/
def mre {σ : Type} : Nat → RE → List Char → Groups → MCont σ → Option σ
  | 0, _, _, _, _ => none
  | _ + 1, .eps, cs, gs, k => k cs gs
  | _ + 1, .cc cl, cs, gs, k =>
    match cs with
    | [] => none
    | c :: rest => if cl.mem c then k rest gs else none
  | _ + 1, .str s ci, cs, gs, k =>
    match strChomp s ci cs with
    | some rest => k rest gs
    | none => none
  | f + 1, .seq a b, cs, gs, k => mre f a cs gs (fun cs2 gs2 => mre f b cs2 gs2 k)
  | f + 1, .alt a b, cs, gs, k =>
    match mre f a cs gs k with
    | some r => some r
    | none => mre f b cs gs k
  | f + 1, .optG a, cs, gs, k =>
    match mre f a cs gs k with
    | some r => some r
    | none => k cs gs
  | f + 1, .starG a, cs, gs, k =>
    match mre f a cs gs (fun cs2 gs2 =>
        if cs2.length < cs.length then mre f (.starG a) cs2 gs2 k else none) with
    | some r => some r
    | none => k cs gs
  | f + 1, .starL a, cs, gs, k =>
    match k cs gs with
    | some r => some r
    | none =>
      mre f a cs gs (fun cs2 gs2 =>
        if cs2.length < cs.length then mre f (.starL a) cs2 gs2 k else none)
  | f + 1, .grp n a, cs, gs, k =>
    mre f a cs gs (fun cs2 gs2 => k cs2 ((n, cs.take (cs.length - cs2.length)) :: gs2))

/-- Fuel amply covering the recursion depth of `mre` on the source's
patterns. -/
def fuelFor (cs : List Char) : Nat := 300 * (cs.length + 2)

/-- Is the multiline `$` assertion true at this rest of the input? -/
def atEol (cs : List Char) : Bool :=
  match cs with
  | [] => true
  | c :: _ => c = '\n'

/-- Attempt a match of `p` anchored at the current position; all the
source's patterns end in `$`, checked by the final continuation. -/
def tryAtEol (p : RE) (cs : List Char) : Option (Groups × List Char) :=
  mre (fuelFor cs) p cs [] (fun rest gs => if atEol rest then some (gs, rest) else none)

/-- Suffixes of the text starting just after each newline: the line-start
positions other than 0. -/
def nlTails : List Char → List (List Char)
  | [] => []
  | c :: cs => if c = '\n' then cs :: nlTails cs else nlTails cs

/-- All line-start suffixes, in position order: position 0, then after each
newline. -/
def lineStarts (cs : List Char) : List (List Char) := cs :: nlTails cs

/-- Model of `pattern.search(text)` for a `(?m)` pattern anchored at `^`:
`re.search` attempts every position left to right, and `^` holds exactly at
the line starts, so the result is the first line-start attempt that
succeeds. -/
def searchML (p : RE) (cs : List Char) : Option (Groups × List Char) :=
  (lineStarts cs).findSome? (tryAtEol p)

/-- Look up a capture group (most recent binding first); an unset group
gives `none`, as `m.group(i)` gives `None`. -/
def glookup (n : Nat) : Groups → Option (List Char)
  | [] => none
  | (m, t) :: gs => if m = n then some t else glookup n gs

/-! ## The source's patterns as `RE` values -/

/-- The class `[:\-]`. -/
def colonDash : RE := .cc (.inSet [':', '-'])

/-- The class `[-–]` (hyphen or en dash). -/
def dashCls : RE := .cc (.inSet ['-', '–'])

/-- Model of `\s*`. -/
def wspS : RE := .starG (.cc .wsp)

/-- Model of `\s+`. -/
def wspP : RE := .seq (.cc .wsp) wspS

/-- Lazy `(.+?)` captured as group `n`. -/
def lazyGrp (n : Nat) : RE := .grp n (.seq (.cc .anyNoNL) (.starL (.cc .anyNoNL)))

/-- Greedy `(.+)` captured as group `n`. -/
def greedyGrp (n : Nat) : RE := .grp n (.seq (.cc .anyNoNL) (.starG (.cc .anyNoNL)))

/-- Model of `[0-9]{1,2}` (greedy). -/
def d12 : RE := .seq (.cc .digit) (.optG (.cc .digit))

/-- One set token `[0-9]{1,2}-[0-9]{1,2}`. -/
def setTok : RE := .seq d12 (.seq (.str ['-'] false) d12)

/-- One additional `\s+`-separated set token. -/
def setTokSep : RE := .seq wspP setTok

/-- Body of the `set_scores` capture (source lines 90/204): one set token
followed by at most three more, the greedy bounded repetition expanded. -/
def scoresBody : RE :=
  .seq setTok (.optG (.seq setTokSep (.optG (.seq setTokSep (.optG setTokSep)))))

/-- The `set_scores` capture group. -/
def scoresGrp (n : Nat) : RE := .grp n scoresBody

/-- The optional score label (source lines 89/203):
`(?:(?:[Ss]core|R(?:ésultat|esultat))\s*[:\-])?` under `(?i)`. -/
def scoreLabel : RE :=
  .optG (.seq
    (.alt (.seq (.cc (.inSet ['S', 's'])) (.str ("core".data) true))
          (.seq (.str ("R".data) true)
                (.alt (.str ("ésultat".data) true) (.str ("esultat".data) true))))
    (.seq wspS colonDash))

/-- The player separator `(?:vs|contre|[-–])` (source lines 91/205), under
`(?i)`. -/
def playerSep : RE :=
  .alt (.str ("vs".data) true) (.alt (.str ("contre".data) true) dashCls)

/-- The alternation `(?:Simple|SIMPLE|S)` under `(?i)`. -/
def simpleHead : RE :=
  .alt (.str ("Simple".data) true) (.alt (.str ("SIMPLE".data) true) (.str ("S".data) true))

/-- The alternation `(?:Double|DOUBLE|D)` under `(?i)`. -/
def doubleHead : RE :=
  .alt (.str ("Double".data) true) (.alt (.str ("DOUBLE".data) true) (.str ("D".data) true))

/-- The optional index capture `(\d+)?` (group 1). -/
def idxGrp : RE := .optG (.grp 1 (.seq (.cc .digit) (.starG (.cc .digit))))

/-- `single_re` (source lines 93–95 and 207–209); the final `$` is checked
by the driver. -/
def singleRE : RE :=
  .seq simpleHead (.seq wspS (.seq idxGrp (.seq wspS (.seq (.optG colonDash)
    (.seq wspS (.seq (lazyGrp 2) (.seq wspP (.seq playerSep (.seq wspP
    (.seq (lazyGrp 3) (.seq wspS (.seq scoreLabel (.seq wspS (scoresGrp 4))))))))))))))

/-- `double_re` (source lines 96–98 and 210–212). -/
def doubleRE : RE :=
  .seq doubleHead (.seq wspS (.seq idxGrp (.seq wspS (.seq (.optG colonDash)
    (.seq wspS (.seq (lazyGrp 2) (.seq wspP (.seq playerSep (.seq wspP
    (.seq (lazyGrp 3) (.seq wspS (.seq scoreLabel (.seq wspS (scoresGrp 4))))))))))))))

/-- `table_row_re` (source lines 101 and 213). -/
def tableRE : RE :=
  .seq (lazyGrp 1) (.seq wspP (.seq dashCls (.seq wspP
    (.seq (lazyGrp 2) (.seq wspP (scoresGrp 3))))))

/-- The team-pair pattern of `find_header_info` (source line 70) — `(?m)`
only, so case sensitive; class alternative before `vs` as written. -/
def teamRE : RE :=
  .seq (lazyGrp 1) (.seq wspS (.seq (.alt dashCls (.str ("vs".data) false))
    (.seq wspS (lazyGrp 2))))

/-- The venue pattern of `find_header_info` (source line 75), `(?mi)`. -/
def lieuRE : RE :=
  .seq (.alt (.str ("Lieu".data) true) (.str ("Site".data) true))
    (.seq wspS (.seq colonDash (.seq wspS (greedyGrp 1))))

/-! ## The date search (source line 65)

The pattern `\b(\d{2}/\d{2}/\d{4})\b` is deterministic, so it is modelled
directly rather than through the engine. -/

/-- Attempt `(\d{2}/\d{2}/\d{4})\b` at the current position, returning the
matched ten characters and the rest. -/
def dateHere : List Char → Option (List Char × List Char)
  | d1 :: d2 :: '/' :: d3 :: d4 :: '/' :: y1 :: y2 :: y3 :: y4 :: rest =>
    if isDig d1 && isDig d2 && isDig d3 && isDig d4 &&
       isDig y1 && isDig y2 && isDig y3 && isDig y4 &&
       (match rest with | [] => true | c :: _ => !isWordC c) then
      some ([d1, d2, '/', d3, d4, '/', y1, y2, y3, y4], rest)
    else none
  | _ => none

/-- Model of `re.search(r"\b(\d{2}/\d{2}/\d{4})\b", text)`: scan positions
left to right; `prevWord` tells whether the character before the current
position is a word character, so the leading `\b` reduces to `!prevWord`
(the match begins with a digit, a word character). -/
def searchDateGo (prevWord : Bool) : List Char → Option (List Char)
  | [] => none
  | c :: cs =>
    match (if prevWord then none else dateHere (c :: cs)) with
    | some r => some r.1
    | none => searchDateGo (isWordC c) cs

/-- Entry point of the date search (at position 0 the `\b` holds exactly
when the first character is a word character). -/
def searchDate (l : List Char) : Option (List Char) := searchDateGo false l

/-! ## Header extraction and row construction -/

/-- Header defaults tuple `(date, lieu, equipe_dom, equipe_ext)`. -/
abbrev Defaults :=
  Option (List Char) × Option (List Char) × Option (List Char) × Option (List Char)

/-- The Header Extractor `find_header_info` (source lines 63–78). -/
def find_header_info (text : List Char) : Defaults :=
  let dateVal := searchDate text
  let tm := searchML teamRE text
  let domVal := tm.map (fun r => pyStrip ((glookup 1 r.1).getD []))
  let extVal := tm.map (fun r => pyStrip ((glookup 2 r.1).getD []))
  let lieuVal := (searchML lieuRE text).map (fun r => pyStrip ((glookup 1 r.1).getD []))
  (dateVal, lieuVal, domVal, extVal)

/-- One parsed result line (source lines 12–22); every field an optional
string. -/
structure MatchRow where
  date : Option (List Char)
  lieu : Option (List Char)
  equipe_dom : Option (List Char)
  equipe_ext : Option (List Char)
  match_type : Option (List Char)
  match_index : Option (List Char)
  joueur_dom : Option (List Char)
  joueur_ext : Option (List Char)
  score : Option (List Char)
  deriving DecidableEq, Repr

mutual

/-- Model of `re.sub(r"\s+", " ", s)`: every maximal whitespace run becomes
one space. -/
def collapseWS : List Char → List Char
  | [] => []
  | c :: cs => if isSpc c then ' ' :: collapseSkip cs else c :: collapseWS cs

/-- Helper of `collapseWS`: inside a whitespace run already replaced. -/
def collapseSkip : List Char → List Char
  | [] => []
  | c :: cs => if isSpc c then collapseSkip cs else c :: collapseWS cs

end

/-- The match-index field `(m.group(1) or "").strip() or None`. -/
def idxField (g : Option (List Char)) : Option (List Char) :=
  let t := pyStrip (g.getD [])
  if t = [] then none else some t

/-- The score field `re.sub(r"\s+", " ", (m.group(i) or "").strip()) or
None`. -/
def scoreField (g : Option (List Char)) : Option (List Char) :=
  let t := collapseWS (pyStrip (g.getD []))
  if t = [] then none else some t

/-- Row built from a `single_re`/`double_re` match (source lines 110–122,
127–139, 221–231 and 234–244). -/
def mkTypedRow (d : Defaults) (ty : List Char) (gs : Groups) : MatchRow :=
  { date := d.1, lieu := d.2.1, equipe_dom := d.2.2.1, equipe_ext := d.2.2.2,
    match_type := some ty,
    match_index := idxField (glookup 1 gs),
    joueur_dom := some (pyStrip ((glookup 2 gs).getD [])),
    joueur_ext := some (pyStrip ((glookup 3 gs).getD [])),
    score := scoreField (glookup 4 gs) }

/-- Row built from a `table_row_re` match (source lines 144–156 and
247–257). -/
def mkTableRow (d : Defaults) (gs : Groups) : MatchRow :=
  { date := d.1, lieu := d.2.1, equipe_dom := d.2.2.1, equipe_ext := d.2.2.2,
    match_type := none, match_index := none,
    joueur_dom := some (pyStrip ((glookup 1 gs).getD [])),
    joueur_ext := some (pyStrip ((glookup 2 gs).getD [])),
    score := scoreField (glookup 3 gs) }

/-- The rule cascade applied to one candidate line — the loop body of
`parse_matches` (source lines 103–156) and, identically, `try_parse_line`
inside `parse_matches_from_tables` (source lines 215–258): strip, skip when
blank, then `single_re`, `double_re`, `table_row_re` in order, first match
wins. -/
def try_parse_line (d : Defaults) (candidate : List Char) : Option MatchRow :=
  let l := pyStrip candidate
  if l = [] then none
  else
    match searchML singleRE l with
    | some (gs, _) => some (mkTypedRow d ("Simple".data) gs)
    | none =>
      match searchML doubleRE l with
      | some (gs, _) => some (mkTypedRow d ("Double".data) gs)
      | none =>
        match searchML tableRE l with
        | some (gs, _) => some (mkTableRow d gs)
        | none => none

/-- The type of the composite dedup key. -/
abbrev RowKey := List Char × List Char × List Char × List Char × List Char

/-- The composite dedup key (source lines 162, 302 and 339). -/
def rowKey (r : MatchRow) : RowKey :=
  (r.match_type.getD [], r.match_index.getD [], r.joueur_dom.getD [],
   r.joueur_ext.getD [], r.score.getD [])

/-- First-occurrence deduplication with a set of seen keys (source lines
158–168, 298–307 and 336–343). -/
def dedupGo (seen : List RowKey) :
    List MatchRow → List MatchRow
  | [] => []
  | r :: rs =>
    if rowKey r ∈ seen then dedupGo seen rs
    else r :: dedupGo (rowKey r :: seen) rs

/-- Per-line row collection of `parse_matches` (the loop of source lines
103–156). -/
def collectRows (d : Defaults) : List (List Char) → List MatchRow
  | [] => []
  | l :: ls =>
    match try_parse_line d l with
    | some r => r :: collectRows d ls
    | none => collectRows d ls

/-- The Line Pattern Matcher `parse_matches` (source lines 81–168). -/
def parse_matches (text : List Char) (d : Defaults) : List MatchRow :=
  dedupGo [] (collectRows d (splitLines text))

/-! ## The Table Reconstructor (source lines 194–307)

The PDF library's table detection is external I/O; the function is modelled
over the list of detected tables, concatenated in page and strategy order.
A table is a list of raw rows; a raw cell may be missing (`None`). -/

/-- One detected table row: raw cells, each possibly missing. -/
abbrev RawRow := List (Option (List Char))

/-- Cell filtering (source line 279):
`[c.strip() for c in raw_row if c and isinstance(c, str)]`. -/
def cellsOf (raw : RawRow) : List (List Char) :=
  (raw.filterMap (fun oc =>
    match oc with
    | some s => if s = [] then none else some s
    | none => none)).map pyStrip

/-- Python `" ".join(cells)`. -/
def joinSpace : List (List Char) → List Char
  | [] => []
  | [c] => c
  | c :: cs => c ++ ' ' :: joinSpace cs

/-- Candidate reconstructed line-strings for one table row (source lines
282–289): all cells space-joined, then the 4-cell shape
`cell0 cell1 - cell2 cell3`, then the 3-cell shape `cell0 - cell1 cell2`. -/
def rowCandidates (cells : List (List Char)) : List (List Char) :=
  [joinSpace cells] ++
  (if 4 ≤ cells.length then
    [(cells.getD 0 []) ++ ' ' :: (cells.getD 1 []) ++
      ' ' :: '-' :: ' ' :: (cells.getD 2 []) ++ ' ' :: (cells.getD 3 [])]
   else []) ++
  (if 3 ≤ cells.length then
    [(cells.getD 0 []) ++ ' ' :: '-' :: ' ' :: (cells.getD 1 []) ++
      ' ' :: (cells.getD 2 [])]
   else [])

/-- First candidate accepted by the rule cascade (source lines 291–296). -/
def firstParse (d : Defaults) : List (List Char) → Option MatchRow
  | [] => none
  | c :: cs =>
    match try_parse_line d c with
    | some r => some r
    | none => firstParse d cs

/-- Row extracted from one raw table row (source lines 276–296): skip when
no usable cell remains, otherwise keep the first parsing candidate. -/
def rowFromCells (d : Defaults) (raw : RawRow) : Option MatchRow :=
  let cells := cellsOf raw
  if cells = [] then none
  else firstParse d (rowCandidates cells)

/-- The Table Reconstructor `parse_matches_from_tables` over the detected
tables (source lines 194–307). -/
def parse_matches_from_tables (tables : List (List RawRow)) (d : Defaults) :
    List MatchRow :=
  dedupGo [] ((tables.map (fun tbl => tbl.filterMap (rowFromCells d))).flatten)

/-! ## The merge and fallback of `main` (source lines 336–359) -/

/-- Merge of the two strategies (source lines 336–343): deduplicate the
concatenation, text rows first. -/
def mergeRows (textRows tableRows : List MatchRow) : List MatchRow :=
  dedupGo [] (textRows ++ tableRows)

/-- The placeholder row (source lines 347–359): header defaults only. -/
def placeholderRow (d : Defaults) : MatchRow :=
  { date := d.1, lieu := d.2.1, equipe_dom := d.2.2.1, equipe_ext := d.2.2.2,
    match_type := none, match_index := none, joueur_dom := none,
    joueur_ext := none, score := none }

/-- Final row list of `main` (source lines 345–359): the merged rows, or
exactly one placeholder when nothing parsed. -/
def finalRows (d : Defaults) (textRows tableRows : List MatchRow) : List MatchRow :=
  let all := mergeRows textRows tableRows
  if all = [] then [placeholderRow d] else all

/-! ## Properties of the deduplication -/

theorem dedupGo_sublist (rs : List MatchRow) :
    ∀ seen, (dedupGo seen rs).Sublist rs := by
  induction rs with
  | nil => intro seen; simp [dedupGo]
  | cons r rs ih =>
    intro seen
    simp only [dedupGo]
    split
    · exact (ih _).cons _
    · exact (ih _).cons₂ _

theorem mem_of_mem_dedupGo {r : MatchRow} {seen : List RowKey} {rs : List MatchRow}
    (h : r ∈ dedupGo seen rs) : r ∈ rs :=
  (dedupGo_sublist rs seen).subset h

theorem dedupGo_find? (rs : List MatchRow) :
    ∀ (seen : List RowKey) (k : RowKey), k ∉ seen →
      (dedupGo seen rs).find? (fun r => decide (rowKey r = k)) =
        rs.find? (fun r => decide (rowKey r = k)) := by
  induction rs with
  | nil => intro seen k _; simp [dedupGo]
  | cons r rs ih =>
    intro seen k hk
    simp only [dedupGo]
    by_cases hs : rowKey r ∈ seen
    · rw [if_pos hs]
      have hne : ¬(rowKey r = k) := fun he => hk (he ▸ hs)
      rw [List.find?_cons_of_neg _ (by simpa using hne)]
      exact ih seen k hk
    · rw [if_neg hs]
      by_cases he : rowKey r = k
      · rw [List.find?_cons_of_pos _ (by simpa using he),
          List.find?_cons_of_pos _ (by simpa using he)]
      · rw [List.find?_cons_of_neg _ (by simpa using he),
          List.find?_cons_of_neg _ (by simpa using he)]
        refine ih _ k ?_
        intro hmem
        rcases List.mem_cons.mp hmem with h1 | h1
        · exact he h1.symm
        · exact hk h1

theorem dedupGo_nodupkeys (rs : List MatchRow) :
    ∀ seen, ((dedupGo seen rs).map rowKey).Nodup ∧
      ∀ r ∈ dedupGo seen rs, rowKey r ∉ seen := by
  induction rs with
  | nil => intro seen; simp [dedupGo]
  | cons r rs ih =>
    intro seen
    simp only [dedupGo]
    by_cases hs : rowKey r ∈ seen
    · rw [if_pos hs]
      exact ih seen
    · rw [if_neg hs]
      refine ⟨?_, ?_⟩
      · refine List.Nodup.cons ?_ (ih (rowKey r :: seen)).1
        intro hmem
        rcases List.mem_map.mp hmem with ⟨x, hx, hkey⟩
        exact (ih (rowKey r :: seen)).2 x hx (hkey ▸ List.mem_cons_self _ _)
      · intro x hx
        rcases List.mem_cons.mp hx with h1 | h1
        · exact h1 ▸ hs
        · intro hxs
          exact (ih (rowKey r :: seen)).2 x h1 (List.mem_cons_of_mem _ hxs)

theorem dedupGo_covers (rs : List MatchRow) :
    ∀ (seen : List RowKey) (r : MatchRow), r ∈ rs → rowKey r ∉ seen →
      ∃ s, s ∈ dedupGo seen rs ∧ rowKey s = rowKey r := by
  induction rs with
  | nil => intro seen r h; simp at h
  | cons a rs ih =>
    intro seen r hr hk
    rcases List.mem_cons.mp hr with h1 | h1
    · subst h1
      simp only [dedupGo]
      rw [if_neg hk]
      exact ⟨r, List.mem_cons_self _ _, rfl⟩
    · simp only [dedupGo]
      by_cases ha : rowKey a ∈ seen
      · rw [if_pos ha]
        exact ih seen r h1 hk
      · rw [if_neg ha]
        by_cases heq : rowKey a = rowKey r
        · exact ⟨a, List.mem_cons_self _ _, heq⟩
        · have hnk : rowKey r ∉ rowKey a :: seen := by
            intro hmem
            rcases List.mem_cons.mp hmem with h2 | h2
            · exact heq h2.symm
            · exact hk h2
          rcases ih (rowKey a :: seen) r h1 hnk with ⟨s, hsmem, hskey⟩
          exact ⟨s, List.mem_cons_of_mem _ hsmem, hskey⟩

theorem find?_of_mem_nodupkeys {l : List MatchRow} {r : MatchRow}
    (hnd : (l.map rowKey).Nodup) (hr : r ∈ l) :
    l.find? (fun x => decide (rowKey x = rowKey r)) = some r := by
  induction l with
  | nil => simp at hr
  | cons a l ih =>
    rcases List.mem_cons.mp hr with h1 | h1
    · subst h1
      rw [List.find?_cons_of_pos _ (by simp)]
    · have hane : ¬(rowKey a = rowKey r) := by
        intro he
        have : rowKey r ∈ l.map rowKey := List.mem_map.mpr ⟨r, h1, rfl⟩
        exact (List.nodup_cons.mp hnd).1 (he ▸ this)
      rw [List.find?_cons_of_neg _ (by simpa using hane)]
      exact ih (List.nodup_cons.mp hnd).2 h1

/-- C1: the merger iterates the concatenation of text-derived rows followed
by table-derived rows, keeps the first occurrence of each composite key and
discards later duplicates; the result is a stable, order-preserving sublist
with pairwise distinct keys, every input key is represented, and when a text
row collides with a table row on the key, the surviving instance is the text
row's. -/
theorem merge_keeps_first_occurrence (R1 R2 : List MatchRow) :
    (mergeRows R1 R2).Sublist (R1 ++ R2) ∧
    ((mergeRows R1 R2).map rowKey).Nodup ∧
    (∀ k : RowKey, (mergeRows R1 R2).find? (fun r => decide (rowKey r = k)) =
        (R1 ++ R2).find? (fun r => decide (rowKey r = k))) ∧
    (∀ r, r ∈ R1 ++ R2 → ∃ s, s ∈ mergeRows R1 R2 ∧ rowKey s = rowKey r) ∧
    (∀ r1 r2, r1 ∈ R1 → r2 ∈ mergeRows R1 R2 → rowKey r2 = rowKey r1 → r2 ∈ R1) := by
  refine ⟨dedupGo_sublist _ [], (dedupGo_nodupkeys _ []).1,
    fun k => dedupGo_find? _ [] k (by simp),
    fun r hr => dedupGo_covers _ [] r hr (by simp), ?_⟩
  intro r1 r2 hr1 hr2 hkey
  have hfind : (mergeRows R1 R2).find? (fun x => decide (rowKey x = rowKey r2)) = some r2 :=
    find?_of_mem_nodupkeys (dedupGo_nodupkeys _ []).1 hr2
  have hcat : (R1 ++ R2).find? (fun x => decide (rowKey x = rowKey r2)) = some r2 := by
    rw [← dedupGo_find? _ [] (rowKey r2) (by simp)]
    exact hfind
  have h1some : (R1.find? (fun x => decide (rowKey x = rowKey r2))).isSome := by
    rw [List.find?_isSome]
    exact ⟨r1, hr1, by simp [hkey]⟩
  rcases Option.isSome_iff_exists.mp h1some with ⟨x, hx⟩
  rw [List.find?_append, hx] at hcat
  have hxr : x = r2 := by simpa using hcat
  have := List.mem_of_find?_eq_some hx
  rw [← hxr]
  exact this

/-- A text-strategy row and a table-strategy row sharing the composite key. -/
def rowT : MatchRow :=
  { date := some ("01/01/2024".data), lieu := none, equipe_dom := none,
    equipe_ext := none, match_type := some ("Simple".data),
    match_index := some ("1".data), joueur_dom := some ("A".data),
    joueur_ext := some ("B".data), score := some ("6-4".data) }

/-- Same key as `rowT`, different row (no date). -/
def rowU : MatchRow :=
  { date := none, lieu := none, equipe_dom := none,
    equipe_ext := none, match_type := some ("Simple".data),
    match_index := some ("1".data), joueur_dom := some ("A".data),
    joueur_ext := some ("B".data), score := some ("6-4".data) }

/-- Witness for C1 at a concrete collision. -/
theorem merge_keeps_first_occurrence_witness :
    ∃ s, s ∈ mergeRows [rowT] [rowU] ∧ rowKey s = rowKey rowU :=
  (merge_keeps_first_occurrence [rowT] [rowU]).2.2.2.1 rowU (by simp)

/-- C2: the final row list is never empty; when the merged list is empty the
output is exactly one placeholder row carrying only the header defaults,
with the match, player and score fields all null. -/
theorem output_never_empty (d : Defaults) (tr tb : List MatchRow) :
    finalRows d tr tb ≠ [] ∧
    (mergeRows tr tb = [] → finalRows d tr tb = [placeholderRow d]) ∧
    (placeholderRow d).date = d.1 ∧ (placeholderRow d).lieu = d.2.1 ∧
    (placeholderRow d).equipe_dom = d.2.2.1 ∧ (placeholderRow d).equipe_ext = d.2.2.2 ∧
    (placeholderRow d).match_type = none ∧ (placeholderRow d).match_index = none ∧
    (placeholderRow d).joueur_dom = none ∧ (placeholderRow d).joueur_ext = none ∧
    (placeholderRow d).score = none := by
  unfold finalRows
  by_cases h : mergeRows tr tb = [] <;>
    simp [h, placeholderRow]

/-- Witness for C2 on empty strategy outputs. -/
theorem output_never_empty_witness :
    finalRows (some ("01/01/2024".data), none, none, none) [] [] =
      [placeholderRow (some ("01/01/2024".data), none, none, none)] :=
  (output_never_empty (some ("01/01/2024".data), none, none, none) [] []).2.1 rfl

/-! ## Soundness of the engine

`Lang r u` is the language of a pattern: the ways `r` can consume exactly
`u`.  `GCap r n t` says a run of `r` may record `t` as the content of group
`n`.  `mandGrps r` underapproximates the groups that are bound on every
successful match (enough for the source's patterns: a group directly in a
concatenation chain is always bound). -/

/-- The language of a pattern. -/
inductive Lang : RE → List Char → Prop where
  | eps : Lang .eps []
  | cc {cl : CC} {c : Char} : cl.mem c = true → Lang (.cc cl) [c]
  | str {s : List Char} {ci : Bool} {u : List Char} :
      strChomp s ci u = some [] → Lang (.str s ci) u
  | seq {a b : RE} {u v : List Char} : Lang a u → Lang b v → Lang (.seq a b) (u ++ v)
  | altL {a b : RE} {u : List Char} : Lang a u → Lang (.alt a b) u
  | altR {a b : RE} {u : List Char} : Lang b u → Lang (.alt a b) u
  | optSome {a : RE} {u : List Char} : Lang a u → Lang (.optG a) u
  | optNone {a : RE} : Lang (.optG a) []
  | starGNil {a : RE} : Lang (.starG a) []
  | starGCons {a : RE} {u v : List Char} :
      Lang a u → Lang (.starG a) v → Lang (.starG a) (u ++ v)
  | starLNil {a : RE} : Lang (.starL a) []
  | starLCons {a : RE} {u v : List Char} :
      Lang a u → Lang (.starL a) v → Lang (.starL a) (u ++ v)
  | grp {n : Nat} {a : RE} {u : List Char} : Lang a u → Lang (.grp n a) u

/-- Admissible group captures of a pattern. -/
inductive GCap : RE → Nat → List Char → Prop where
  | here {n : Nat} {a : RE} {t : List Char} : Lang a t → GCap (.grp n a) n t
  | under {n m : Nat} {a : RE} {t : List Char} : GCap a m t → GCap (.grp n a) m t
  | seqL {a b : RE} {n : Nat} {t : List Char} : GCap a n t → GCap (.seq a b) n t
  | seqR {a b : RE} {n : Nat} {t : List Char} : GCap b n t → GCap (.seq a b) n t
  | altL {a b : RE} {n : Nat} {t : List Char} : GCap a n t → GCap (.alt a b) n t
  | altR {a b : RE} {n : Nat} {t : List Char} : GCap b n t → GCap (.alt a b) n t
  | inOpt {a : RE} {n : Nat} {t : List Char} : GCap a n t → GCap (.optG a) n t
  | inStarG {a : RE} {n : Nat} {t : List Char} : GCap a n t → GCap (.starG a) n t
  | inStarL {a : RE} {n : Nat} {t : List Char} : GCap a n t → GCap (.starL a) n t

/-- Groups certainly bound by any successful match (an underapproximation;
groups under alternation or repetition are not counted). -/
def mandGrps : RE → List Nat
  | .seq a b => mandGrps a ++ mandGrps b
  | .grp n a => n :: mandGrps a
  | _ => []

theorem strChomp_decomp :
    ∀ (s : List Char) (ci : Bool) (cs rest : List Char),
      strChomp s ci cs = some rest → ∃ u, cs = u ++ rest ∧ strChomp s ci u = some [] := by
  intro s
  induction s with
  | nil =>
    intro ci cs rest h
    simp only [strChomp] at h
    exact ⟨[], by simp [← Option.some_inj.mp h], rfl⟩
  | cons a s ih =>
    intro ci cs rest h
    cases cs with
    | nil => simp [strChomp] at h
    | cons c cs2 =>
      simp only [strChomp] at h
      by_cases hc : chEq ci a c = true
      · rw [if_pos hc] at h
        rcases ih ci cs2 rest h with ⟨u, hcs, hu⟩
        refine ⟨c :: u, by simp [hcs], ?_⟩
        simp only [strChomp]
        rw [if_pos hc]
        exact hu
      · rw [if_neg hc] at h
        simp at h

theorem mre_sound {σ : Type} (f : Nat) :
    ∀ (r : RE) (cs : List Char) (gs : Groups) (k : MCont σ) (res : σ),
      mre f r cs gs k = some res →
      ∃ u rest gsN, cs = u ++ rest ∧ Lang r u ∧
        (∀ p ∈ gsN, GCap r p.1 p.2) ∧
        (∀ n ∈ mandGrps r, ∃ t, (n, t) ∈ gsN) ∧
        k rest (gsN ++ gs) = some res := by
  induction f with
  | zero => intro r cs gs k res h; simp [mre] at h
  | succ f ih =>
    intro r cs gs k res h
    cases r with
    | eps =>
      simp only [mre] at h
      exact ⟨[], cs, [], rfl, Lang.eps, by simp, by simp [mandGrps], h⟩
    | cc cl =>
      cases cs with
      | nil => simp [mre] at h
      | cons c rest2 =>
        simp only [mre] at h
        by_cases hc : cl.mem c = true
        · rw [if_pos hc] at h
          exact ⟨[c], rest2, [], rfl, Lang.cc hc, by simp, by simp [mandGrps], h⟩
        · rw [if_neg hc] at h
          simp at h
    | str s ci =>
      simp only [mre] at h
      cases hch : strChomp s ci cs with
      | none => rw [hch] at h; simp at h
      | some rest2 =>
        rw [hch] at h
        rcases strChomp_decomp s ci cs rest2 hch with ⟨u, hcs, hu⟩
        exact ⟨u, rest2, [], hcs, Lang.str hu, by simp, by simp [mandGrps], h⟩
    | seq a b =>
      simp only [mre] at h
      rcases ih a cs gs _ res h with ⟨u1, rest1, gsN1, hcs1, hL1, hC1, hM1, hk1⟩
      rcases ih b rest1 (gsN1 ++ gs) k res hk1 with ⟨u2, rest, gsN2, hcs2, hL2, hC2, hM2, hk2⟩
      refine ⟨u1 ++ u2, rest, gsN2 ++ gsN1, ?_, Lang.seq hL1 hL2, ?_, ?_, ?_⟩
      · rw [hcs1, hcs2, List.append_assoc]
      · intro p hp
        rcases List.mem_append.mp hp with h1 | h1
        · exact GCap.seqR (hC2 p h1)
        · exact GCap.seqL (hC1 p h1)
      · intro n hn
        simp only [mandGrps] at hn
        rcases List.mem_append.mp hn with h1 | h1
        · rcases hM1 n h1 with ⟨t, ht⟩
          exact ⟨t, List.mem_append.mpr (Or.inr ht)⟩
        · rcases hM2 n h1 with ⟨t, ht⟩
          exact ⟨t, List.mem_append.mpr (Or.inl ht)⟩
      · rw [List.append_assoc]; exact hk2
    | alt a b =>
      simp only [mre] at h
      cases h1 : mre f a cs gs k with
      | some r1 =>
        rw [h1] at h
        have hres : r1 = res := Option.some_inj.mp h
        rcases ih a cs gs k r1 h1 with ⟨u, rest, gsN, hcs, hL, hC, hM, hk⟩
        refine ⟨u, rest, gsN, hcs, Lang.altL hL,
          fun p hp => GCap.altL (hC p hp), by simp [mandGrps], ?_⟩
        rw [← hres]; exact hk
      | none =>
        rw [h1] at h
        rcases ih b cs gs k res h with ⟨u, rest, gsN, hcs, hL, hC, hM, hk⟩
        exact ⟨u, rest, gsN, hcs, Lang.altR hL,
          fun p hp => GCap.altR (hC p hp), by simp [mandGrps], hk⟩
    | optG a =>
      simp only [mre] at h
      cases h1 : mre f a cs gs k with
      | some r1 =>
        rw [h1] at h
        have hres : r1 = res := Option.some_inj.mp h
        rcases ih a cs gs k r1 h1 with ⟨u, rest, gsN, hcs, hL, hC, hM, hk⟩
        refine ⟨u, rest, gsN, hcs, Lang.optSome hL,
          fun p hp => GCap.inOpt (hC p hp), by simp [mandGrps], ?_⟩
        rw [← hres]; exact hk
      | none =>
        rw [h1] at h
        exact ⟨[], cs, [], rfl, Lang.optNone, by simp, by simp [mandGrps], h⟩
    | starG a =>
      simp only [mre] at h
      cases h1 : mre f a cs gs (fun cs2 gs2 =>
          if cs2.length < cs.length then mre f (.starG a) cs2 gs2 k else none) with
      | some r1 =>
        rw [h1] at h
        have hres : r1 = res := Option.some_inj.mp h
        rcases ih a cs gs _ r1 h1 with ⟨u1, rest1, gsN1, hcs1, hL1, hC1, hM1, hk1⟩
        split at hk1
        · rcases ih (.starG a) rest1 (gsN1 ++ gs) k r1 hk1 with
            ⟨u2, rest, gsN2, hcs2, hL2, hC2, hM2, hk2⟩
          refine ⟨u1 ++ u2, rest, gsN2 ++ gsN1,
            by rw [hcs1, hcs2, List.append_assoc], Lang.starGCons hL1 hL2, ?_,
            by simp [mandGrps], ?_⟩
          · intro p hp
            rcases List.mem_append.mp hp with h2 | h2
            · exact hC2 p h2
            · exact GCap.inStarG (hC1 p h2)
          · rw [List.append_assoc, ← hres]; exact hk2
        · simp at hk1
      | none =>
        rw [h1] at h
        exact ⟨[], cs, [], rfl, Lang.starGNil, by simp, by simp [mandGrps], h⟩
    | starL a =>
      simp only [mre] at h
      cases h1 : k cs gs with
      | some r1 =>
        rw [h1] at h
        have hres : r1 = res := Option.some_inj.mp h
        refine ⟨[], cs, [], rfl, Lang.starLNil, by simp, by simp [mandGrps], ?_⟩
        rw [← hres]; exact h1
      | none =>
        rw [h1] at h
        rcases ih a cs gs _ res h with ⟨u1, rest1, gsN1, hcs1, hL1, hC1, hM1, hk1⟩
        split at hk1
        · rcases ih (.starL a) rest1 (gsN1 ++ gs) k res hk1 with
            ⟨u2, rest, gsN2, hcs2, hL2, hC2, hM2, hk2⟩
          refine ⟨u1 ++ u2, rest, gsN2 ++ gsN1,
            by rw [hcs1, hcs2, List.append_assoc], Lang.starLCons hL1 hL2, ?_,
            by simp [mandGrps], by rw [List.append_assoc]; exact hk2⟩
          intro p hp
          rcases List.mem_append.mp hp with h2 | h2
          · exact hC2 p h2
          · exact GCap.inStarL (hC1 p h2)
        · simp at hk1
    | grp n a =>
      simp only [mre] at h
      rcases ih a cs gs _ res h with ⟨u, rest, gsN1, hcs, hL, hC, hM, hk⟩
      have htake : cs.take (cs.length - rest.length) = u := by
        rw [hcs]
        have h1 : (u ++ rest).length - rest.length = u.length := by simp
        rw [h1, List.take_left]
      rw [htake] at hk
      refine ⟨u, rest, (n, u) :: gsN1, hcs, Lang.grp hL, ?_, ?_, hk⟩
      · intro p hp
        rcases List.mem_cons.mp hp with h1 | h1
        · subst h1
          exact GCap.here hL
        · exact GCap.under (hC p h1)
      · intro m hm
        simp only [mandGrps] at hm
        rcases List.mem_cons.mp hm with h1 | h1
        · exact ⟨u, h1 ▸ List.mem_cons_self _ _⟩
        · rcases hM m h1 with ⟨t, ht⟩
          exact ⟨t, List.mem_cons_of_mem _ ht⟩

/-- A successful anchored attempt consumes a prefix of the input lying in
the pattern's language, stops at a `$` position, and records only group
contents the pattern licenses; groups in the mandatory chain are bound. -/
theorem tryAtEol_sound {p : RE} {cs rest : List Char} {gs : Groups}
    (h : tryAtEol p cs = some (gs, rest)) :
    ∃ u, cs = u ++ rest ∧ Lang p u ∧ atEol rest = true ∧
      (∀ q ∈ gs, GCap p q.1 q.2) ∧ (∀ n ∈ mandGrps p, ∃ t, (n, t) ∈ gs) := by
  rcases mre_sound (fuelFor cs) p cs [] _ (gs, rest) h with
    ⟨u, rest1, gsN, hcs, hL, hC, hM, hk⟩
  split at hk
  · rcases Prod.mk.injEq .. ▸ Option.some_inj.mp hk with ⟨hgs, hrest⟩
    subst hrest
    have hgs2 : gsN = gs := by simpa using hgs
    subst hgs2
    exact ⟨u, hcs, hL, by assumption, by simpa using hC, by simpa using hM⟩
  · simp at hk

theorem nlTails_no_nl : ∀ l : List Char, '\n' ∉ l → nlTails l = [] := by
  intro l
  induction l with
  | nil => intro _; simp [nlTails]
  | cons c rest ih =>
    intro h
    have hc : ¬(c = '\n') := fun he => h (he ▸ List.mem_cons_self _ _)
    simp only [nlTails]
    rw [if_neg hc]
    exact ih (fun hm => h (List.mem_cons_of_mem _ hm))

/-- On newline-free input, `pattern.search` succeeds only at position 0 —
the whole (trimmed) line must match. -/
theorem searchML_no_nl (p : RE) (l : List Char) (h : '\n' ∉ l) :
    searchML p l = tryAtEol p l := by
  simp only [searchML, lineStarts, nlTails_no_nl l h]
  cases htry : tryAtEol p l <;> simp [List.findSome?_cons, htry]

/-- On a newline-free line, a rule match spans the entire line. -/
theorem searchML_full {p : RE} {l : List Char} {gs : Groups} {rest : List Char}
    (hn : '\n' ∉ l) (h : searchML p l = some (gs, rest)) :
    rest = [] ∧ Lang p l ∧ (∀ q ∈ gs, GCap p q.1 q.2) ∧
      (∀ n ∈ mandGrps p, ∃ t, (n, t) ∈ gs) := by
  rw [searchML_no_nl p l hn] at h
  rcases tryAtEol_sound h with ⟨u, hcs, hL, heol, hC, hM⟩
  cases rest with
  | nil =>
    have hu : u = l := by simpa using hcs.symm
    exact ⟨rfl, hu ▸ hL, hC, hM⟩
  | cons c r2 =>
    have hc : c = '\n' := by simpa [atEol] using heol
    exact absurd (hcs ▸ List.mem_append.mpr (Or.inr (hc ▸ List.mem_cons_self _ _))) hn

theorem splitLines_go_no_lb (n : Nat) :
    ∀ l : List Char, l.length ≤ n →
      ((∀ cur, (∀ c ∈ cur, isLB c = false) →
         ∀ s ∈ splitLinesGo cur l, ∀ c ∈ s, isLB c = false) ∧
       (∀ s ∈ splitLinesGoCR l, ∀ c ∈ s, isLB c = false)) := by
  induction n with
  | zero =>
    intro l hlen
    have hl : l = [] := List.length_eq_zero.mp (Nat.le_zero.mp hlen)
    subst hl
    constructor
    · intro cur hcur s hs c hc
      simp only [splitLinesGo] at hs
      split at hs
      · simp at hs
      · have hsc : s = cur.reverse := by simpa using hs
        exact hcur c (by simpa [hsc] using hc)
    · intro s hs
      simp [splitLinesGoCR] at hs
  | succ n ih =>
    intro l hlen
    cases l with
    | nil => exact ih [] (by simp)
    | cons a rest =>
      have hrest : rest.length ≤ n := by simp at hlen; omega
      constructor
      · intro cur hcur s hs c hc
        simp only [splitLinesGo] at hs
        by_cases ha : a = '\r'
        · rw [if_pos ha] at hs
          rcases List.mem_cons.mp hs with h1 | h1
          · exact hcur c (by simpa [h1] using hc)
          · exact (ih rest hrest).2 s h1 c hc
        · rw [if_neg ha] at hs
          by_cases hb : isLB a = true
          · rw [if_pos hb] at hs
            rcases List.mem_cons.mp hs with h1 | h1
            · exact hcur c (by simpa [h1] using hc)
            · exact (ih rest hrest).1 [] (by simp) s h1 c hc
          · rw [if_neg hb] at hs
            refine (ih rest hrest).1 (a :: cur) ?_ s hs c hc
            intro x hx
            rcases List.mem_cons.mp hx with h1 | h1
            · subst h1
              exact Bool.not_eq_true _ ▸ hb
            · exact hcur x h1
      · intro s hs c hc
        simp only [splitLinesGoCR] at hs
        by_cases ha : a = '\n'
        · rw [if_pos ha] at hs
          exact (ih rest hrest).1 [] (by simp) s hs c hc
        · rw [if_neg ha] at hs
          by_cases ha2 : a = '\r'
          · rw [if_pos ha2] at hs
            rcases List.mem_cons.mp hs with h1 | h1
            · simp [h1] at hc
            · exact (ih rest hrest).2 s h1 c hc
          · rw [if_neg ha2] at hs
            by_cases hb : isLB a = true
            · rw [if_pos hb] at hs
              rcases List.mem_cons.mp hs with h1 | h1
              · simp [h1] at hc
              · exact (ih rest hrest).1 [] (by simp) s h1 c hc
            · rw [if_neg hb] at hs
              refine (ih rest hrest).1 [a] ?_ s hs c hc
              intro x hx
              have hxa : x = a := by simpa using hx
              subst hxa
              exact Bool.not_eq_true _ ▸ hb

/-- No produced line contains a newline (or any other line break). -/
theorem splitLines_no_nl (l : List Char) : ∀ s ∈ splitLines l, '\n' ∉ s := by
  intro s hs hmem
  have := (splitLines_go_no_lb l.length l (le_refl _)).1 [] (by simp) s hs '\n' hmem
  simp [isLB] at this

theorem collectRows_eq_filterMap (d : Defaults) :
    ∀ ls : List (List Char), collectRows d ls = ls.filterMap (try_parse_line d) := by
  intro ls
  induction ls with
  | nil => simp [collectRows]
  | cons l ls ih =>
    simp only [collectRows, List.filterMap_cons]
    cases try_parse_line d l <;> simp [ih]


/-- C3, Scenario 1: the labelled Simple line parses to the expected row,
stamped with the header defaults. -/
theorem scenario1_simple_line (d : Defaults) :
    parse_matches ("Simple 1: Jean Dupont vs Marc Martin Score: 6-4 4-6 10-7".data) d =
      [{ date := d.1, lieu := d.2.1, equipe_dom := d.2.2.1, equipe_ext := d.2.2.2,
         match_type := some ("Simple".data), match_index := some ("1".data),
         joueur_dom := some ("Jean Dupont".data), joueur_ext := some ("Marc Martin".data),
         score := some ("6-4 4-6 10-7".data) }] := rfl

/-- The row actually produced for the Scenario 5 table row. -/
def c4row (d : Defaults) : MatchRow :=
  { date := d.1, lieu := d.2.1, equipe_dom := d.2.2.1, equipe_ext := d.2.2.2,
    match_type := some ("Simple".data), match_index := some ("1".data),
    joueur_dom := some ("Alice".data), joueur_ext := some ("Bob".data),
    score := some ("6-1 6-2".data) }

/-- C4 counterexample: for the 4-cell table row of Scenario 5, the produced
row has non-null match_type "Simple" and non-null match_index "1" — the
candidate is claimed by the Simple rule, not the generic table-row rule. -/
theorem scenario5_counterexample :
    rowFromCells (none, none, none, none)
        [some ("S1".data), some ("Alice".data), some ("Bob".data), some ("6-1 6-2".data)] =
      some (c4row (none, none, none, none)) ∧
    (c4row (none, none, none, none)).match_type = some ("Simple".data) ∧
    (c4row (none, none, none, none)).match_index = some ("1".data) :=
  ⟨rfl, rfl, rfl⟩

/-- C4 amended: the candidates are built as specified, the space-joined
candidate fails, and the second candidate "S1 Alice - Bob 6-1 6-2" is
matched by the Simple rule (tried before the generic rule), producing
match_type "Simple", match_index "1", joueur_dom "Alice", joueur_ext "Bob",
score "6-1 6-2". -/
theorem scenario5_simple_rule_wins (d : Defaults) :
    rowCandidates (cellsOf
        [some ("S1".data), some ("Alice".data), some ("Bob".data), some ("6-1 6-2".data)]) =
      [("S1 Alice Bob 6-1 6-2".data), ("S1 Alice - Bob 6-1 6-2".data),
        ("S1 - Alice Bob".data)] ∧
    try_parse_line d ("S1 Alice Bob 6-1 6-2".data) = none ∧
    try_parse_line d ("S1 Alice - Bob 6-1 6-2".data) = some (c4row d) ∧
    rowFromCells d
        [some ("S1".data), some ("Alice".data), some ("Bob".data), some ("6-1 6-2".data)] =
      some (c4row d) :=
  ⟨rfl, rfl, rfl, rfl⟩

/-- C10: a line matching only the generic grammar but starting with S (resp.
D) is claimed by the Simple (resp. Double) rule, whose head consumes the
first letter, leaving a clipped home-player name and a typed row instead of
the untyped generic row. -/
theorem leading_letter_swallowed (d : Defaults) :
    try_parse_line d ("Smith - Jones 6-4".data) =
      some { date := d.1, lieu := d.2.1, equipe_dom := d.2.2.1, equipe_ext := d.2.2.2,
             match_type := some ("Simple".data), match_index := none,
             joueur_dom := some ("mith".data), joueur_ext := some ("Jones".data),
             score := some ("6-4".data) } ∧
    try_parse_line d ("Davis - Jones 6-4".data) =
      some { date := d.1, lieu := d.2.1, equipe_dom := d.2.2.1, equipe_ext := d.2.2.2,
             match_type := some ("Double".data), match_index := none,
             joueur_dom := some ("avis".data), joueur_ext := some ("Jones".data),
             score := some ("6-4".data) } :=
  ⟨rfl, rfl⟩

/-- C5: the Line Pattern Matcher processes lines independently (its output
is the per-line cascade results, deduplicated keeping input order), tries
the Simple rule, then the Double rule, then the generic table-row rule,
first match wins, silently skips lines matching no rule, and a rule match on
a (newline-free) trimmed line always spans the whole line — the line lies in
the rule's language. -/
theorem line_rule_cascade (text : List Char) (d : Defaults) :
    parse_matches text d = dedupGo [] ((splitLines text).filterMap (try_parse_line d)) ∧
    (parse_matches text d).Sublist ((splitLines text).filterMap (try_parse_line d)) ∧
    (∀ s ∈ splitLines text, '\n' ∉ s) ∧
    (∀ l, pyStrip l = [] → try_parse_line d l = none) ∧
    (∀ l gs rest, pyStrip l ≠ [] →
      searchML singleRE (pyStrip l) = some (gs, rest) →
      try_parse_line d l = some (mkTypedRow d ("Simple".data) gs)) ∧
    (∀ l gs rest, pyStrip l ≠ [] →
      searchML singleRE (pyStrip l) = none →
      searchML doubleRE (pyStrip l) = some (gs, rest) →
      try_parse_line d l = some (mkTypedRow d ("Double".data) gs)) ∧
    (∀ l gs rest, pyStrip l ≠ [] →
      searchML singleRE (pyStrip l) = none →
      searchML doubleRE (pyStrip l) = none →
      searchML tableRE (pyStrip l) = some (gs, rest) →
      try_parse_line d l = some (mkTableRow d gs)) ∧
    (∀ l, searchML singleRE (pyStrip l) = none →
      searchML doubleRE (pyStrip l) = none →
      searchML tableRE (pyStrip l) = none →
      try_parse_line d l = none) ∧
    (∀ (p : RE) (l : List Char) (gs : Groups) (rest : List Char), '\n' ∉ l →
      searchML p l = some (gs, rest) → rest = [] ∧ Lang p l) := by
  refine ⟨?_, ?_, fun s hs => splitLines_no_nl text s hs, ?_, ?_, ?_, ?_, ?_, ?_⟩
  · unfold parse_matches
    rw [collectRows_eq_filterMap]
  · unfold parse_matches
    rw [collectRows_eq_filterMap]
    exact dedupGo_sublist _ []
  · intro l h
    simp [try_parse_line, h]
  · intro l gs rest h1 h2
    simp [try_parse_line, h1, h2]
  · intro l gs rest h1 h2 h3
    simp [try_parse_line, h1, h2, h3]
  · intro l gs rest h1 h2 h3 h4
    simp [try_parse_line, h1, h2, h3, h4]
  · intro l h2 h3 h4
    by_cases h1 : pyStrip l = []
    · simp [try_parse_line, h1]
    · simp [try_parse_line, h1, h2, h3, h4]
  · intro p l gs rest hn h
    rcases searchML_full hn h with ⟨h1, h2, _, _⟩
    exact ⟨h1, h2⟩

/-- Witness for C5: a blank line is skipped. -/
theorem line_rule_cascade_witness :
    try_parse_line (none, none, none, none) (" ".data) = none :=
  (line_rule_cascade [] (none, none, none, none)).2.2.2.1 (" ".data) rfl

/-! ## The date search: characterization (claim C6) -/

/-- Word-boundary test for a match position given the consumed prefix:
`pw` is whether the character just before the whole scan was a word
character (false at the start of the text).  Since a date match begins with
a digit, `\b` holds exactly when the preceding character is absent or not a
word character. -/
def bnd (pw : Bool) (pre : List Char) : Bool :=
  match pre.getLast? with
  | none => !pw
  | some c => !isWordC c

/-- A split of the text at which the code's boundary-delimited date pattern
matches. -/
def dateAtSplit (pre suf : List Char) : Bool :=
  bnd false pre && (dateHere suf).isSome

theorem bnd_cons (pw : Bool) (c : Char) (pre : List Char) :
    bnd pw (c :: pre) = bnd (isWordC c) pre := by
  cases pre with
  | nil => simp [bnd]
  | cons d pre2 =>
    cases hl : (d :: pre2).getLast? with
    | none => simp at hl
    | some x => simp [bnd, List.getLast?_cons_cons, hl]

theorem searchDateGo_none :
    ∀ (l : List Char) (pw : Bool),
      searchDateGo pw l = none ↔
        ∀ pre suf, l = pre ++ suf → (bnd pw pre && (dateHere suf).isSome) = false := by
  intro l
  induction l with
  | nil =>
    intro pw
    constructor
    · intro _ pre suf h
      rcases List.append_eq_nil.mp h.symm with ⟨h1, h2⟩
      subst h1; subst h2
      simp [dateHere]
    · intro _
      simp [searchDateGo]
  | cons c cs ih =>
    intro pw
    have hsplit : ∀ pw2 : Bool,
        (∀ pre suf, cs = pre ++ suf →
          (bnd (isWordC c) pre && (dateHere suf).isSome) = false) ↔
        (∀ pre suf, (c :: cs : List Char) = pre ++ suf → pre ≠ [] →
          (bnd pw2 pre && (dateHere suf).isSome) = false) := by
      intro pw2
      constructor
      · intro hall pre suf h hne
        cases pre with
        | nil => exact absurd rfl hne
        | cons c2 pre2 =>
          rcases List.cons_eq_cons.mp h with ⟨hc, hcs⟩
          subst hc
          rw [bnd_cons]
          exact hall pre2 suf hcs
      · intro hall pre suf h
        rw [← bnd_cons pw2 c pre]
        refine hall (c :: pre) suf (by simp [h]) (by simp)
    cases pw with
    | true =>
      have hred : searchDateGo true (c :: cs) = searchDateGo (isWordC c) cs := by
        simp [searchDateGo]
      rw [hred, ih (isWordC c), hsplit true]
      constructor
      · intro hall pre suf h
        cases pre with
        | nil => simp [bnd]
        | cons c2 pre2 => exact hall (c2 :: pre2) suf h (by simp)
      · intro hall pre suf h _
        exact hall pre suf h
    | false =>
      cases hd : dateHere (c :: cs) with
      | some r =>
        have hred : searchDateGo false (c :: cs) = some r.1 := by
          simp [searchDateGo, hd]
        rw [hred]
        constructor
        · intro hcon
          simp at hcon
        · intro hall
          exfalso
          have hx := hall [] (c :: cs) rfl
          rw [hd] at hx
          simp [bnd] at hx
      | none =>
        have hred : searchDateGo false (c :: cs) = searchDateGo (isWordC c) cs := by
          simp [searchDateGo, hd]
        rw [hred, ih (isWordC c), hsplit false]
        constructor
        · intro hall pre suf h
          cases pre with
          | nil =>
            have hsuf : suf = c :: cs := (by simpa using h : (c :: cs : List Char) = suf).symm
            subst hsuf
            simp [hd]
          | cons c2 pre2 => exact hall (c2 :: pre2) suf h (by simp)
        · intro hall pre suf h _
          exact hall pre suf h

theorem searchDateGo_some :
    ∀ (l : List Char) (pw : Bool) (dm : List Char),
      searchDateGo pw l = some dm →
      ∃ pre suf rest, l = pre ++ suf ∧ bnd pw pre = true ∧
        dateHere suf = some (dm, rest) ∧
        ∀ pre2 suf2, l = pre2 ++ suf2 → pre2.length < pre.length →
          (bnd pw pre2 && (dateHere suf2).isSome) = false := by
  intro l
  induction l with
  | nil => intro pw dm h; simp [searchDateGo] at h
  | cons c cs ih =>
    intro pw dm h
    have step : ∀ pw2 : Bool, searchDateGo (isWordC c) cs = some dm →
        (∀ suf2, (c :: cs : List Char) = [] ++ suf2 →
          (bnd pw2 [] && (dateHere suf2).isSome) = false) →
        ∃ pre suf rest, (c :: cs : List Char) = pre ++ suf ∧ bnd pw2 pre = true ∧
          dateHere suf = some (dm, rest) ∧
          ∀ pre2 suf2, (c :: cs : List Char) = pre2 ++ suf2 → pre2.length < pre.length →
            (bnd pw2 pre2 && (dateHere suf2).isSome) = false := by
      intro pw2 hrec hnil
      rcases ih (isWordC c) dm hrec with ⟨pre1, suf, rest, hcs, hb, hdh, hmin⟩
      refine ⟨c :: pre1, suf, rest, by simp [hcs], by rwa [bnd_cons], hdh, ?_⟩
      intro pre2 suf2 heq hlen
      cases pre2 with
      | nil => exact hnil suf2 heq
      | cons c2 pre3 =>
        rcases List.cons_eq_cons.mp heq with ⟨hc2, hrest⟩
        subst hc2
        rw [bnd_cons]
        exact hmin pre3 suf2 hrest (by simpa using hlen)
    cases pw with
    | true =>
      have hred : searchDateGo true (c :: cs) = searchDateGo (isWordC c) cs := by
        simp [searchDateGo]
      rw [hred] at h
      exact step true h (fun suf2 heq => by simp [bnd])
    | false =>
      cases hd : dateHere (c :: cs) with
      | some r =>
        have hred : searchDateGo false (c :: cs) = some r.1 := by
          simp [searchDateGo, hd]
        rw [hred] at h
        have hdm : r.1 = dm := by simpa using h
        refine ⟨[], c :: cs, r.2, rfl, by simp [bnd], ?_, ?_⟩
        · rw [hd, ← hdm]
        · intro pre2 suf2 _ hlen
          simp at hlen
      | none =>
        have hred : searchDateGo false (c :: cs) = searchDateGo (isWordC c) cs := by
          simp [searchDateGo, hd]
        rw [hred] at h
        refine step false h ?_
        intro suf2 heq
        have hsuf : suf2 = c :: cs := (by simpa using heq : (c :: cs : List Char) = suf2).symm
        subst hsuf
        simp [hd]

/-- C6 amended: the Header Extractor's date is the first substring of the
text matching the word-boundary-delimited pattern `\b\d{2}/\d{2}/\d{4}\b`
(earliest start position), and it is null exactly when no boundary-delimited
occurrence exists; there is still no calendar validation. -/
theorem date_first_boundary_match (text : List Char) :
    ((find_header_info text).1 = none ↔
      ∀ pre suf, text = pre ++ suf → dateAtSplit pre suf = false) ∧
    (∀ dm, (find_header_info text).1 = some dm →
      ∃ pre suf rest, text = pre ++ suf ∧ bnd false pre = true ∧
        dateHere suf = some (dm, rest) ∧
        ∀ pre2 suf2, text = pre2 ++ suf2 → pre2.length < pre.length →
          dateAtSplit pre2 suf2 = false) := by
  have hfh : (find_header_info text).1 = searchDate text := rfl
  constructor
  · rw [hfh]
    exact searchDateGo_none text false
  · intro dm h
    rw [hfh] at h
    exact searchDateGo_some text false dm h

/-- Witness for C6's amended claim at a concrete text. -/
theorem date_first_boundary_match_witness :
    ∃ pre suf rest, ("le 12/03/2024".data) = pre ++ suf ∧ bnd false pre = true ∧
      dateHere suf = some (("12/03/2024".data), rest) ∧
      ∀ pre2 suf2, ("le 12/03/2024".data) = pre2 ++ suf2 → pre2.length < pre.length →
        dateAtSplit pre2 suf2 = false :=
  (date_first_boundary_match ("le 12/03/2024".data)).2 ("12/03/2024".data) rfl

/-- Modelled from the spec's claim wording (C6): the pattern
`\d{2}/\d{2}/\d{4}` WITHOUT word boundaries, tested at the head of a
suffix. -/
def specDateHere : List Char → Bool
  | d1 :: d2 :: '/' :: d3 :: d4 :: '/' :: y1 :: y2 :: y3 :: y4 :: _ =>
    isDig d1 && isDig d2 && isDig d3 && isDig d4 &&
    isDig y1 && isDig y2 && isDig y3 && isDig y4
  | _ => false

/-- Modelled from the spec's claim wording (C6): the text contains a
substring matching `\d{2}/\d{2}/\d{4}`. -/
def specHasDate : List Char → Bool
  | [] => false
  | c :: cs => specDateHere (c :: cs) || specHasDate cs

/-- C6 counterexample: the normalized text "112/34/5678" contains a
substring matching `\d{2}/\d{2}/\d{4}` (namely "12/34/5678"), yet the
extractor returns null, because the code's pattern is anchored by `\b` word
boundaries that the claim omits. -/
theorem date_boundary_counterexample :
    clean_text ("112/34/5678".data) = ("112/34/5678".data) ∧
    specHasDate ("112/34/5678".data) = true ∧
    (find_header_info ("112/34/5678".data)).1 = none :=
  ⟨rfl, rfl, rfl⟩

/-! ## The team-pair search: characterization (claim C7) -/

theorem findSome?_eq_some_split {α β : Type} (f : α → Option β) :
    ∀ (l : List α) (b : β), l.findSome? f = some b →
      ∃ pre a post, l = pre ++ a :: post ∧ (∀ x ∈ pre, f x = none) ∧ f a = some b := by
  intro l
  induction l with
  | nil => intro b h; simp at h
  | cons a l ih =>
    intro b h
    cases hf : f a with
    | some c =>
      rw [List.findSome?_cons, hf] at h
      exact ⟨[], a, l, rfl, by simp, hf.trans h⟩
    | none =>
      rw [List.findSome?_cons, hf] at h
      rcases ih b h with ⟨pre, x, post, hl, hpre, hx⟩
      refine ⟨a :: pre, x, post, by simp [hl], ?_, hx⟩
      intro y hy
      rcases List.mem_cons.mp hy with h1 | h1
      · exact h1 ▸ hf
      · exact hpre y h1

/-- C7 counterexample: in the normalized two-line text "A\nvs B" no single
line has the team-pair shape, yet the extractor returns home "A" and away
"B" — the `\s*` before the separator consumes the newline, so the match
spans both lines. -/
theorem team_pair_spans_lines :
    clean_text ("A\nvs B".data) = ("A\nvs B".data) ∧
    splitLines ("A\nvs B".data) = [("A".data), ("vs B".data)] ∧
    tryAtEol teamRE ("A".data) = none ∧
    tryAtEol teamRE ("vs B".data) = none ∧
    (find_header_info ("A\nvs B".data)).2.2.1 = some ("A".data) ∧
    (find_header_info ("A\nvs B".data)).2.2.2 = some ("B".data) :=
  ⟨rfl, rfl, rfl, rfl, rfl, rfl⟩

/-- C7 amended: the team pair comes from the first line-start position of
the text from which the pattern matches — a match that may continue across
a line break, since the whitespace around the separator matches newlines;
home and away are the trimmed captures of that first match, and both are
null exactly when no line-start attempt succeeds. -/
theorem team_first_line_start_match (text : List Char) :
    (((find_header_info text).2.2.1 = none ∧ (find_header_info text).2.2.2 = none) ↔
      ∀ s ∈ lineStarts text, tryAtEol teamRE s = none) ∧
    (∀ gs rest, searchML teamRE text = some (gs, rest) →
      (find_header_info text).2.2.1 = some (pyStrip ((glookup 1 gs).getD [])) ∧
      (find_header_info text).2.2.2 = some (pyStrip ((glookup 2 gs).getD [])) ∧
      ∃ pre s post, lineStarts text = pre ++ s :: post ∧
        (∀ x ∈ pre, tryAtEol teamRE x = none) ∧ tryAtEol teamRE s = some (gs, rest)) ∧
    (∀ s gs rest, tryAtEol teamRE s = some (gs, rest) →
      ∃ u, s = u ++ rest ∧ Lang teamRE u) := by
  have hdom : (find_header_info text).2.2.1 =
      (searchML teamRE text).map (fun r => pyStrip ((glookup 1 r.1).getD [])) := rfl
  have hext : (find_header_info text).2.2.2 =
      (searchML teamRE text).map (fun r => pyStrip ((glookup 2 r.1).getD [])) := rfl
  have hsm : searchML teamRE text = (lineStarts text).findSome? (tryAtEol teamRE) := rfl
  refine ⟨?_, ?_, ?_⟩
  · constructor
    · rintro ⟨h1, _⟩
      rw [hdom] at h1
      have hnone : searchML teamRE text = none := by
        cases hh : searchML teamRE text with
        | none => rfl
        | some r => rw [hh] at h1; simp at h1
      rw [hsm] at hnone
      exact List.findSome?_eq_none_iff.mp hnone
    · intro hall
      have hnone : searchML teamRE text = none := by
        rw [hsm]
        exact List.findSome?_eq_none_iff.mpr hall
      rw [hdom, hext, hnone]
      simp
  · intro gs rest h
    refine ⟨by rw [hdom, h]; rfl, by rw [hext, h]; rfl, ?_⟩
    rw [hsm] at h
    exact findSome?_eq_some_split (tryAtEol teamRE) (lineStarts text) (gs, rest) h
  · intro s gs rest h
    rcases tryAtEol_sound h with ⟨u, hcs, hL, _, _, _⟩
    exact ⟨u, hcs, hL⟩

/-- Witness for C7's amended claim at a concrete text. -/
theorem team_first_line_start_match_witness :
    (find_header_info ("A - B".data)).2.2.1 =
      some (pyStrip ((glookup 1 [(2, ("B".data)), (1, ("A".data))]).getD [])) ∧
    (find_header_info ("A - B".data)).2.2.2 =
      some (pyStrip ((glookup 2 [(2, ("B".data)), (1, ("A".data))]).getD [])) ∧
    ∃ pre s post, lineStarts ("A - B".data) = pre ++ s :: post ∧
      (∀ x ∈ pre, tryAtEol teamRE x = none) ∧
      tryAtEol teamRE s = some ([(2, ("B".data)), (1, ("A".data))], []) :=
  (team_first_line_start_match ("A - B".data)).2.1
    [(2, ("B".data)), (1, ("A".data))] [] rfl

/-! ## The Text Normalizer: idempotence (claim C8) -/

/-- Characters rewritten away by the first two normalizer steps. -/
def goodChar (c : Char) : Prop := c ≠ ' ' ∧ c ≠ '\t' ∧ c ≠ '\r'

/-- No two adjacent whitespace characters. -/
def NoTwoSpc (l : List Char) : Prop :=
  List.Chain' (fun a b => ¬(isSpc a = true ∧ isSpc b = true)) l

/-- Shape of every Text Normalizer output: no rewritten characters, no two
adjacent whitespace characters, no whitespace at either end. -/
def NormalizedTxt (l : List Char) : Prop :=
  (∀ c ∈ l, goodChar c) ∧ NoTwoSpc l ∧
  (∀ c, l.head? = some c → isSpc c = false) ∧
  (∀ c, l.getLast? = some c → isSpc c = false)

theorem mem_repNbsp {c : Char} {l : List Char} (h : c ∈ repNbsp l) : c ≠ ' ' := by
  rcases List.mem_map.mp h with ⟨a, _, hfa⟩
  by_cases ha : a = ' '
  · rw [if_pos ha] at hfa
    rw [← hfa]
    decide
  · rw [if_neg ha] at hfa
    rw [← hfa]
    exact ha

theorem mem_subTC (n : Nat) :
    ∀ l : List Char, l.length ≤ n →
      (∀ c ∈ subTC l, c = ' ' ∨ (c ∈ l ∧ c ≠ '\t' ∧ c ≠ '\r')) ∧
      (∀ c ∈ subTCskip l, c = ' ' ∨ (c ∈ l ∧ c ≠ '\t' ∧ c ≠ '\r')) := by
  induction n with
  | zero =>
    intro l hlen
    have hl : l = [] := List.length_eq_zero.mp (Nat.le_zero.mp hlen)
    subst hl
    simp [subTC, subTCskip]
  | succ n ih =>
    intro l hlen
    cases l with
    | nil => simp [subTC, subTCskip]
    | cons a rest =>
      have hrest : rest.length ≤ n := by simp at hlen; omega
      constructor
      · intro c hc
        simp only [subTC] at hc
        by_cases ha : (a = '\t' || a = '\r') = true
        · rw [if_pos ha] at hc
          rcases List.mem_cons.mp hc with h1 | h1
          · exact Or.inl h1
          · rcases (ih rest hrest).2 c h1 with h2 | ⟨h2, h3⟩
            · exact Or.inl h2
            · exact Or.inr ⟨List.mem_cons_of_mem _ h2, h3⟩
        · rw [if_neg ha] at hc
          rcases List.mem_cons.mp hc with h1 | h1
          · subst h1
            simp only [Bool.or_eq_true, decide_eq_true_eq] at ha
            push_neg at ha
            exact Or.inr ⟨List.mem_cons_self _ _, ha⟩
          · rcases (ih rest hrest).1 c h1 with h2 | ⟨h2, h3⟩
            · exact Or.inl h2
            · exact Or.inr ⟨List.mem_cons_of_mem _ h2, h3⟩
      · intro c hc
        simp only [subTCskip] at hc
        by_cases ha : (a = '\t' || a = '\r') = true
        · rw [if_pos ha] at hc
          rcases (ih rest hrest).2 c hc with h2 | ⟨h2, h3⟩
          · exact Or.inl h2
          · exact Or.inr ⟨List.mem_cons_of_mem _ h2, h3⟩
        · rw [if_neg ha] at hc
          rcases List.mem_cons.mp hc with h1 | h1
          · subst h1
            simp only [Bool.or_eq_true, decide_eq_true_eq] at ha
            push_neg at ha
            exact Or.inr ⟨List.mem_cons_self _ _, ha⟩
          · rcases (ih rest hrest).1 c h1 with h2 | ⟨h2, h3⟩
            · exact Or.inl h2
            · exact Or.inr ⟨List.mem_cons_of_mem _ h2, h3⟩

theorem mem_sub3emit {c : Char} {run : List Char} (h : c ∈ sub3emit run) :
    c = '\n' ∨ c ∈ run := by
  simp only [sub3emit] at h
  split at h
  · rcases List.mem_cons.mp h with h1 | h1
    · exact Or.inl h1
    · refine Or.inr ?_
      have := List.mem_reverse.mp h1
      have h2 := (List.takeWhile_prefix _).subset this
      exact List.mem_reverse.mp h2
  · exact Or.inr h

theorem mem_sub3 (n : Nat) :
    ∀ l : List Char, l.length ≤ n →
      (∀ c ∈ sub3 l, c = '\n' ∨ c ∈ l) ∧
      (∀ acc, ∀ c ∈ sub3run acc l, c = '\n' ∨ c ∈ acc ∨ c ∈ l) := by
  induction n with
  | zero =>
    intro l hlen
    have hl : l = [] := List.length_eq_zero.mp (Nat.le_zero.mp hlen)
    subst hl
    refine ⟨by simp [sub3], ?_⟩
    intro acc c hc
    simp only [sub3run] at hc
    rcases mem_sub3emit hc with h1 | h1
    · exact Or.inl h1
    · exact Or.inr (Or.inl (List.mem_reverse.mp h1))
  | succ n ih =>
    intro l hlen
    cases l with
    | nil =>
      refine ⟨by simp [sub3], ?_⟩
      intro acc c hc
      simp only [sub3run] at hc
      rcases mem_sub3emit hc with h1 | h1
      · exact Or.inl h1
      · exact Or.inr (Or.inl (List.mem_reverse.mp h1))
    | cons a rest =>
      have hrest : rest.length ≤ n := by simp at hlen; omega
      constructor
      · intro c hc
        simp only [sub3] at hc
        by_cases ha : isSpc a = true
        · rw [if_pos ha] at hc
          rcases (ih rest hrest).2 [a] c hc with h1 | h1 | h1
          · exact Or.inl h1
          · refine Or.inr ?_
            have hca : c = a := by simpa using h1
            rw [hca]
            exact List.mem_cons_self _ _
          · exact Or.inr (List.mem_cons_of_mem _ h1)
        · rw [if_neg ha] at hc
          rcases List.mem_cons.mp hc with h1 | h1
          · exact Or.inr (h1 ▸ List.mem_cons_self _ _)
          · rcases (ih rest hrest).1 c h1 with h2 | h2
            · exact Or.inl h2
            · exact Or.inr (List.mem_cons_of_mem _ h2)
      · intro acc c hc
        simp only [sub3run] at hc
        by_cases ha : isSpc a = true
        · rw [if_pos ha] at hc
          rcases (ih rest hrest).2 (a :: acc) c hc with h1 | h1 | h1
          · exact Or.inl h1
          · rcases List.mem_cons.mp h1 with h2 | h2
            · exact Or.inr (Or.inr (h2 ▸ List.mem_cons_self _ _))
            · exact Or.inr (Or.inl h2)
          · exact Or.inr (Or.inr (List.mem_cons_of_mem _ h1))
        · rw [if_neg ha] at hc
          rcases List.mem_append.mp hc with h1 | h1
          · rcases mem_sub3emit h1 with h2 | h2
            · exact Or.inl h2
            · exact Or.inr (Or.inl (List.mem_reverse.mp h2))
          · rcases List.mem_cons.mp h1 with h2 | h2
            · exact Or.inr (Or.inr (h2 ▸ List.mem_cons_self _ _))
            · rcases (ih rest hrest).1 c h2 with h3 | h3
              · exact Or.inl h3
              · exact Or.inr (Or.inr (List.mem_cons_of_mem _ h3))

theorem mem_sub4 (n : Nat) :
    ∀ l : List Char, l.length ≤ n →
      (∀ c ∈ sub4 l, c ∈ l) ∧ (∀ c ∈ sub4skip l, c ∈ l) := by
  induction n with
  | zero =>
    intro l hlen
    have hl : l = [] := List.length_eq_zero.mp (Nat.le_zero.mp hlen)
    subst hl
    simp [sub4, sub4skip]
  | succ n ih =>
    intro l hlen
    cases l with
    | nil => simp [sub4, sub4skip]
    | cons a rest =>
      have hrest : rest.length ≤ n := by simp at hlen; omega
      constructor
      · intro c hc
        simp only [sub4] at hc
        by_cases ha : a = '\n'
        · rw [if_pos ha] at hc
          rcases List.mem_cons.mp hc with h1 | h1
          · rw [h1, ha]
            exact List.mem_cons_self _ _
          · exact List.mem_cons_of_mem _ ((ih rest hrest).2 c h1)
        · rw [if_neg ha] at hc
          rcases List.mem_cons.mp hc with h1 | h1
          · exact h1 ▸ List.mem_cons_self _ _
          · exact List.mem_cons_of_mem _ ((ih rest hrest).1 c h1)
      · intro c hc
        simp only [sub4skip] at hc
        by_cases ha : isSpc a = true
        · rw [if_pos ha] at hc
          exact List.mem_cons_of_mem _ ((ih rest hrest).2 c hc)
        · rw [if_neg ha] at hc
          rcases List.mem_cons.mp hc with h1 | h1
          · exact h1 ▸ List.mem_cons_self _ _
          · exact List.mem_cons_of_mem _ ((ih rest hrest).1 c h1)

theorem mem_sub5 (n : Nat) :
    ∀ l : List Char, l.length ≤ n →
      (∀ c ∈ sub5 l, c = ' ' ∨ c ∈ l) ∧
      (∀ c0, ∀ c ∈ sub5run c0 l, c = ' ' ∨ c = c0 ∨ c ∈ l) ∧
      (∀ c ∈ sub5skip l, c = ' ' ∨ c ∈ l) := by
  induction n with
  | zero =>
    intro l hlen
    have hl : l = [] := List.length_eq_zero.mp (Nat.le_zero.mp hlen)
    subst hl
    refine ⟨by simp [sub5], ?_, by simp [sub5skip]⟩
    intro c0 c hc
    simp only [sub5run] at hc
    exact Or.inr (Or.inl (by simpa using hc))
  | succ n ih =>
    intro l hlen
    cases l with
    | nil =>
      refine ⟨by simp [sub5], ?_, by simp [sub5skip]⟩
      intro c0 c hc
      simp only [sub5run] at hc
      exact Or.inr (Or.inl (by simpa using hc))
    | cons a rest =>
      have hrest : rest.length ≤ n := by simp at hlen; omega
      refine ⟨?_, ?_, ?_⟩
      · intro c hc
        simp only [sub5] at hc
        by_cases ha : isSpc a = true
        · rw [if_pos ha] at hc
          rcases (ih rest hrest).2.1 a c hc with h1 | h1 | h1
          · exact Or.inl h1
          · exact Or.inr (h1 ▸ List.mem_cons_self _ _)
          · exact Or.inr (List.mem_cons_of_mem _ h1)
        · rw [if_neg ha] at hc
          rcases List.mem_cons.mp hc with h1 | h1
          · exact Or.inr (h1 ▸ List.mem_cons_self _ _)
          · rcases (ih rest hrest).1 c h1 with h2 | h2
            · exact Or.inl h2
            · exact Or.inr (List.mem_cons_of_mem _ h2)
      · intro c0 c hc
        simp only [sub5run] at hc
        by_cases ha : isSpc a = true
        · rw [if_pos ha] at hc
          rcases List.mem_cons.mp hc with h1 | h1
          · exact Or.inl h1
          · rcases (ih rest hrest).2.2 c h1 with h2 | h2
            · exact Or.inl h2
            · exact Or.inr (Or.inr (List.mem_cons_of_mem _ h2))
        · rw [if_neg ha] at hc
          rcases List.mem_cons.mp hc with h1 | h1
          · exact Or.inr (Or.inl h1)
          · rcases List.mem_cons.mp h1 with h2 | h2
            · exact Or.inr (Or.inr (h2 ▸ List.mem_cons_self _ _))
            · rcases (ih rest hrest).1 c h2 with h3 | h3
              · exact Or.inl h3
              · exact Or.inr (Or.inr (List.mem_cons_of_mem _ h3))
      · intro c hc
        simp only [sub5skip] at hc
        by_cases ha : isSpc a = true
        · rw [if_pos ha] at hc
          rcases (ih rest hrest).2.2 c hc with h1 | h1
          · exact Or.inl h1
          · exact Or.inr (List.mem_cons_of_mem _ h1)
        · rw [if_neg ha] at hc
          rcases List.mem_cons.mp hc with h1 | h1
          · exact Or.inr (h1 ▸ List.mem_cons_self _ _)
          · rcases (ih rest hrest).1 c h1 with h2 | h2
            · exact Or.inl h2
            · exact Or.inr (List.mem_cons_of_mem _ h2)

theorem sub5_chain (n : Nat) :
    ∀ l : List Char, l.length ≤ n →
      NoTwoSpc (sub5 l) ∧ (∀ c0, NoTwoSpc (sub5run c0 l)) ∧
      (NoTwoSpc (sub5skip l) ∧
        ∀ c, (sub5skip l).head? = some c → isSpc c = false) := by
  induction n with
  | zero =>
    intro l hlen
    have hl : l = [] := List.length_eq_zero.mp (Nat.le_zero.mp hlen)
    subst hl
    refine ⟨by simp [sub5, NoTwoSpc], ?_, by simp [sub5skip, NoTwoSpc]⟩
    intro c0
    simp [sub5run, NoTwoSpc]
  | succ n ih =>
    intro l hlen
    cases l with
    | nil =>
      refine ⟨by simp [sub5, NoTwoSpc], ?_, by simp [sub5skip, NoTwoSpc]⟩
      intro c0
      simp [sub5run, NoTwoSpc]
    | cons a rest =>
      have hrest : rest.length ≤ n := by simp at hlen; omega
      have hchainconsn : ∀ b : Char, isSpc b = false → NoTwoSpc (sub5 rest) →
          NoTwoSpc (b :: sub5 rest) := by
        intro b hb hch
        rw [NoTwoSpc, List.chain'_cons']
        refine ⟨?_, hch⟩
        intro y _
        intro hcon
        rw [hb] at hcon
        exact absurd hcon.1 (by simp)
      refine ⟨?_, ?_, ?_⟩
      · simp only [sub5]
        by_cases ha : isSpc a = true
        · rw [if_pos ha]
          exact (ih rest hrest).2.1 a
        · rw [if_neg ha]
          exact hchainconsn a (Bool.not_eq_true _ ▸ ha) (ih rest hrest).1
      · intro c0
        simp only [sub5run]
        by_cases ha : isSpc a = true
        · rw [if_pos ha]
          rw [NoTwoSpc, List.chain'_cons']
          refine ⟨?_, (ih rest hrest).2.2.1⟩
          intro y hy hcon
          exact absurd hcon.2 (by simp [(ih rest hrest).2.2.2 y hy])
        · rw [if_neg ha]
          rw [NoTwoSpc, List.chain'_cons']
          refine ⟨?_, hchainconsn a (Bool.not_eq_true _ ▸ ha) (ih rest hrest).1⟩
          intro y hy hcon
          have hya : a = y := by simpa using hy
          rw [← hya] at hcon
          exact absurd hcon.2 ha
      · simp only [sub5skip]
        by_cases ha : isSpc a = true
        · rw [if_pos ha]
          exact (ih rest hrest).2.2
        · rw [if_neg ha]
          refine ⟨hchainconsn a (Bool.not_eq_true _ ▸ ha) (ih rest hrest).1, ?_⟩
          intro c hc
          have hca : a = c := by simpa using hc
          rw [← hca]
          exact Bool.not_eq_true _ ▸ ha

theorem NoTwoSpc_reverse {l : List Char} (h : NoTwoSpc l) : NoTwoSpc l.reverse := by
  rw [NoTwoSpc, List.chain'_reverse]
  exact List.Chain'.imp (fun a b hab => fun hcon => hab ⟨hcon.2, hcon.1⟩) h

theorem NoTwoSpc_dropSpc {l : List Char} (h : NoTwoSpc l) : NoTwoSpc (dropSpc l) :=
  List.Chain'.suffix h (List.dropWhile_suffix _)

theorem NoTwoSpc_pyStrip {l : List Char} (h : NoTwoSpc l) : NoTwoSpc (pyStrip l) := by
  unfold pyStrip
  exact NoTwoSpc_reverse (NoTwoSpc_dropSpc (NoTwoSpc_reverse (NoTwoSpc_dropSpc h)))

theorem head?_dropSpc {l : List Char} {c : Char}
    (h : (dropSpc l).head? = some c) : isSpc c = false := by
  induction l with
  | nil => simp [dropSpc] at h
  | cons a rest ih =>
    rw [dropSpc, List.dropWhile_cons] at h
    by_cases ha : isSpc a = true
    · rw [if_pos (by simpa using ha)] at h
      exact ih h
    · rw [if_neg (by simpa using ha)] at h
      have hca : c = a := by simpa using h.symm
      rw [hca]
      exact Bool.not_eq_true _ ▸ ha

theorem getLast?_of_suffix {l1 l : List Char} (h : l1.IsSuffix l) (hne : l1 ≠ []) :
    l1.getLast? = l.getLast? := by
  rcases h with ⟨pre, rfl⟩
  rw [List.getLast?_append]
  cases hl : l1.getLast? with
  | none =>
    exfalso
    rcases List.exists_cons_of_ne_nil hne with ⟨x, xs, rfl⟩
    rw [List.getLast?_cons] at hl
    simp at hl
  | some x => simp [Option.or]

theorem pyStrip_last {l : List Char} {c : Char}
    (h : (pyStrip l).getLast? = some c) : isSpc c = false := by
  have heq : (pyStrip l).getLast? = (dropSpc ((dropSpc l).reverse)).head? := by
    simp [pyStrip, List.getLast?_reverse]
  rw [heq] at h
  exact head?_dropSpc h

theorem pyStrip_head {l : List Char} {c : Char}
    (h : (pyStrip l).head? = some c) : isSpc c = false := by
  have heq : (pyStrip l).head? = (dropSpc ((dropSpc l).reverse)).getLast? := by
    simp [pyStrip, List.head?_reverse]
  rw [heq] at h
  have hne : dropSpc ((dropSpc l).reverse) ≠ [] := by
    intro hnil
    rw [hnil] at h
    simp at h
  have hsuf : (dropSpc ((dropSpc l).reverse)).IsSuffix ((dropSpc l).reverse) :=
    List.dropWhile_suffix _
  rw [getLast?_of_suffix hsuf hne] at h
  rw [List.getLast?_reverse] at h
  exact head?_dropSpc h

theorem mem_pyStrip {c : Char} {l : List Char} (h : c ∈ pyStrip l) : c ∈ l := by
  unfold pyStrip at h
  have h1 := List.mem_reverse.mp h
  have h2 := (List.dropWhile_suffix _).subset h1
  have h3 := List.mem_reverse.mp h2
  exact (List.dropWhile_suffix _).subset h3

theorem NoTwoSpc_tail {a : Char} {l : List Char} (h : NoTwoSpc (a :: l)) : NoTwoSpc l :=
  (List.chain'_cons'.mp h).2

theorem NoTwoSpc_pair {a b : Char} {l : List Char} (h : NoTwoSpc (a :: b :: l)) :
    ¬(isSpc a = true ∧ isSpc b = true) := by
  have := (List.chain'_cons'.mp h).1
  exact this b (by simp)

theorem repNbsp_id {l : List Char} (h : ∀ c ∈ l, c ≠ ' ') : repNbsp l = l := by
  induction l with
  | nil => simp [repNbsp]
  | cons a rest ih =>
    simp only [repNbsp, List.map_cons]
    rw [if_neg (h a (List.mem_cons_self _ _))]
    have := ih (fun c hc => h c (List.mem_cons_of_mem _ hc))
    simp only [repNbsp] at this
    rw [this]

theorem subTC_id {l : List Char} (h : ∀ c ∈ l, c ≠ '\t' ∧ c ≠ '\r') : subTC l = l := by
  induction l with
  | nil => simp [subTC]
  | cons a rest ih =>
    simp only [subTC]
    rcases h a (List.mem_cons_self _ _) with ⟨h1, h2⟩
    rw [if_neg (by simp [h1, h2])]
    rw [ih (fun c hc => h c (List.mem_cons_of_mem _ hc))]

theorem sub3_id (n : Nat) :
    ∀ l : List Char, l.length ≤ n → NoTwoSpc l → sub3 l = l := by
  induction n with
  | zero =>
    intro l hlen _
    have hl : l = [] := List.length_eq_zero.mp (Nat.le_zero.mp hlen)
    subst hl
    simp [sub3]
  | succ n ih =>
    intro l hlen hch
    cases l with
    | nil => simp [sub3]
    | cons a rest =>
      have hrest : rest.length ≤ n := by simp at hlen; omega
      simp only [sub3]
      by_cases ha : isSpc a = true
      · rw [if_pos ha]
        cases rest with
        | nil => simp [sub3run, sub3emit]
        | cons b rest2 =>
          have hb : isSpc b = false := by
            by_contra hbc
            exact NoTwoSpc_pair hch ⟨ha, by simpa using hbc⟩
          simp only [sub3run]
          rw [if_neg (by simp [hb])]
          have hrest2 : rest2.length ≤ n := by simp at hlen; omega
          rw [ih rest2 hrest2 (NoTwoSpc_tail (NoTwoSpc_tail hch))]
          simp [sub3emit]
      · rw [if_neg ha]
        rw [ih rest hrest (NoTwoSpc_tail hch)]

theorem sub4_id (n : Nat) :
    ∀ l : List Char, l.length ≤ n → NoTwoSpc l → sub4 l = l := by
  induction n with
  | zero =>
    intro l hlen _
    have hl : l = [] := List.length_eq_zero.mp (Nat.le_zero.mp hlen)
    subst hl
    simp [sub4]
  | succ n ih =>
    intro l hlen hch
    cases l with
    | nil => simp [sub4]
    | cons a rest =>
      have hrest : rest.length ≤ n := by simp at hlen; omega
      simp only [sub4]
      by_cases ha : a = '\n'
      · rw [if_pos ha]
        cases rest with
        | nil => simp [sub4skip, ha]
        | cons b rest2 =>
          have hb : isSpc b = false := by
            by_contra hbc
            exact NoTwoSpc_pair hch ⟨by rw [ha]; decide, by simpa using hbc⟩
          simp only [sub4skip]
          rw [if_neg (by simp [hb])]
          have hrest2 : rest2.length ≤ n := by simp at hlen; omega
          rw [ih rest2 hrest2 (NoTwoSpc_tail (NoTwoSpc_tail hch))]
          rw [ha]
      · rw [if_neg ha]
        rw [ih rest hrest (NoTwoSpc_tail hch)]

theorem sub5_id (n : Nat) :
    ∀ l : List Char, l.length ≤ n → NoTwoSpc l → sub5 l = l := by
  induction n with
  | zero =>
    intro l hlen _
    have hl : l = [] := List.length_eq_zero.mp (Nat.le_zero.mp hlen)
    subst hl
    simp [sub5]
  | succ n ih =>
    intro l hlen hch
    cases l with
    | nil => simp [sub5]
    | cons a rest =>
      have hrest : rest.length ≤ n := by simp at hlen; omega
      simp only [sub5]
      by_cases ha : isSpc a = true
      · rw [if_pos ha]
        cases rest with
        | nil => simp [sub5run]
        | cons b rest2 =>
          have hb : isSpc b = false := by
            by_contra hbc
            exact NoTwoSpc_pair hch ⟨ha, by simpa using hbc⟩
          simp only [sub5run]
          rw [if_neg (by simp [hb])]
          have hrest2 : rest2.length ≤ n := by simp at hlen; omega
          rw [ih rest2 hrest2 (NoTwoSpc_tail (NoTwoSpc_tail hch))]
      · rw [if_neg ha]
        rw [ih rest hrest (NoTwoSpc_tail hch)]

theorem dropSpc_id {l : List Char}
    (h : ∀ c, l.head? = some c → isSpc c = false) : dropSpc l = l := by
  cases l with
  | nil => simp [dropSpc]
  | cons a rest =>
    rw [dropSpc, List.dropWhile_cons]
    rw [if_neg (by simp [h a rfl])]

theorem pyStrip_id {l : List Char}
    (hh : ∀ c, l.head? = some c → isSpc c = false)
    (hl : ∀ c, l.getLast? = some c → isSpc c = false) : pyStrip l = l := by
  unfold pyStrip
  rw [dropSpc_id hh]
  have : dropSpc l.reverse = l.reverse := by
    refine dropSpc_id ?_
    intro c hc
    rw [List.head?_reverse] at hc
    exact hl c hc
  rw [this, List.reverse_reverse]

/-- Every Text Normalizer output has the normal shape. -/
theorem clean_text_normal (l : List Char) : NormalizedTxt (clean_text l) := by
  refine ⟨?_, ?_, ?_, ?_⟩
  · intro c hc
    have h5 := mem_pyStrip hc
    have hsp : goodChar ' ' := by constructor <;> decide
    have hnl : goodChar '\n' := by constructor <;> decide
    rcases (mem_sub5 _ _ (le_refl _)).1 c h5 with h | h4
    · exact h ▸ hsp
    · have h3 := (mem_sub4 _ _ (le_refl _)).1 c h4
      rcases (mem_sub3 _ _ (le_refl _)).1 c h3 with h | h2
      · exact h ▸ hnl
      · rcases (mem_subTC _ _ (le_refl _)).1 c h2 with h | ⟨hmem, ht, hr⟩
        · exact h ▸ hsp
        · exact ⟨mem_repNbsp hmem, ht, hr⟩
  · exact NoTwoSpc_pyStrip (sub5_chain _ _ (le_refl _)).1
  · intro c hc
    exact pyStrip_head hc
  · intro c hc
    exact pyStrip_last hc

/-- The Text Normalizer is the identity on normal-shaped text. -/
theorem clean_text_of_normal {l : List Char} (h : NormalizedTxt l) : clean_text l = l := by
  rcases h with ⟨hgood, hch, hh, hl⟩
  unfold clean_text
  rw [repNbsp_id (fun c hc => (hgood c hc).1),
    subTC_id (fun c hc => ⟨(hgood c hc).2.1, (hgood c hc).2.2⟩),
    sub3_id l.length l (le_refl _) hch,
    sub4_id l.length l (le_refl _) hch,
    sub5_id l.length l (le_refl _) hch,
    pyStrip_id hh hl]

/-- C8: the Text Normalizer is a total function on every string (in
particular the empty one) and is idempotent: normalizing already-normalized
text returns it unchanged. -/
theorem clean_text_total_idempotent :
    clean_text [] = [] ∧ ∀ l : List Char, clean_text (clean_text l) = clean_text l :=
  ⟨rfl, fun l => clean_text_of_normal (clean_text_normal l)⟩

/-! ## The score invariant (claim C9) -/

/-- One set token of the shape `digit{1,2}-digit{1,2}`: one or two digits,
a hyphen, one or two digits. -/
def IsSetTokB (t : List Char) : Bool :=
  let a := t.takeWhile isDig
  let rest := t.dropWhile isDig
  (a.length = 1 || a.length = 2) &&
  (match rest with
   | '-' :: b => (b.length = 1 || b.length = 2) && b.all isDig
   | _ => false)

/-- The shape every produced score has: one to four set tokens joined by
single spaces. -/
def ScoreShape (s : List Char) : Prop :=
  ∃ toks : List (List Char), toks ≠ [] ∧ toks.length ≤ 4 ∧
    (∀ t ∈ toks, IsSetTokB t = true) ∧ s = joinSpace toks

/-- All characters whitespace. -/
def AllSpc (l : List Char) : Prop := ∀ c ∈ l, isSpc c = true

/-- No character whitespace. -/
def SpcFree (l : List Char) : Prop := ∀ c ∈ l, isSpc c = false

/-- The capture groups syntactically present in a pattern, with their
bodies. -/
def grpBodies : RE → List (Nat × RE)
  | .seq a b => grpBodies a ++ grpBodies b
  | .alt a b => grpBodies a ++ grpBodies b
  | .optG a => grpBodies a
  | .starG a => grpBodies a
  | .starL a => grpBodies a
  | .grp n a => (n, a) :: grpBodies a
  | _ => []

theorem gcap_bodies {r : RE} {n : Nat} {t : List Char} (h : GCap r n t) :
    ∃ a, (n, a) ∈ grpBodies r ∧ Lang a t := by
  induction h with
  | here hl => exact ⟨_, by simp [grpBodies], hl⟩
  | under _ ih =>
    rcases ih with ⟨a, ha, hl⟩
    exact ⟨a, by simp [grpBodies]; exact Or.inr ha, hl⟩
  | seqL _ ih =>
    rcases ih with ⟨a, ha, hl⟩
    exact ⟨a, by simp [grpBodies]; exact Or.inl ha, hl⟩
  | seqR _ ih =>
    rcases ih with ⟨a, ha, hl⟩
    exact ⟨a, by simp [grpBodies]; exact Or.inr ha, hl⟩
  | altL _ ih =>
    rcases ih with ⟨a, ha, hl⟩
    exact ⟨a, by simp [grpBodies]; exact Or.inl ha, hl⟩
  | altR _ ih =>
    rcases ih with ⟨a, ha, hl⟩
    exact ⟨a, by simp [grpBodies]; exact Or.inr ha, hl⟩
  | inOpt _ ih => rcases ih with ⟨a, ha, hl⟩; exact ⟨a, by simpa [grpBodies] using ha, hl⟩
  | inStarG _ ih => rcases ih with ⟨a, ha, hl⟩; exact ⟨a, by simpa [grpBodies] using ha, hl⟩
  | inStarL _ ih => rcases ih with ⟨a, ha, hl⟩; exact ⟨a, by simpa [grpBodies] using ha, hl⟩

theorem glookup_of_mem {n : Nat} {t : List Char} :
    ∀ gs : Groups, (n, t) ∈ gs → ∃ u, glookup n gs = some u := by
  intro gs
  induction gs with
  | nil => intro h; simp at h
  | cons p rest ih =>
    obtain ⟨m, u⟩ := p
    intro h
    by_cases hp : m = n
    · exact ⟨u, by simp [glookup, hp]⟩
    · simp only [glookup]
      rw [if_neg hp]
      refine ih ?_
      rcases List.mem_cons.mp h with h1 | h1
      · exact absurd (Prod.mk.injEq .. ▸ h1).1.symm hp
      · exact h1

theorem glookup_mem {n : Nat} {t : List Char} :
    ∀ gs : Groups, glookup n gs = some t → (n, t) ∈ gs := by
  intro gs
  induction gs with
  | nil => intro h; simp [glookup] at h
  | cons p rest ih =>
    obtain ⟨m, u⟩ := p
    intro h
    simp only [glookup] at h
    by_cases hp : m = n
    · rw [if_pos hp] at h
      have : u = t := by simpa using h
      subst this
      subst hp
      exact List.mem_cons_self _ _
    · rw [if_neg hp] at h
      exact List.mem_cons_of_mem _ (ih h)

theorem isDig_not_spc {c : Char} (hd : isDig c = true) : isSpc c = false := by
  simp only [isDig, Bool.and_eq_true, decide_eq_true_eq] at hd
  rcases hd with ⟨hd1, hd2⟩
  by_contra hcon
  have hsp : isSpc c = true := by simpa using hcon
  simp only [isSpc, Bool.or_eq_true, Bool.and_eq_true, decide_eq_true_eq, or_assoc] at hsp
  rcases hsp with h|h|h|h|h|h|h|h|h|h|h|h|h|⟨h1, h2⟩|h|h|h|h|h <;>
    first
      | (subst h; exact absurd hd1 (by decide))
      | (subst h; exact absurd hd2 (by decide))
      | (exact absurd (le_trans h1 hd2) (by decide))

theorem lang_d12 {u : List Char} (h : Lang d12 u) :
    (∃ c, u = [c] ∧ isDig c = true) ∨
    (∃ c1 c2, u = [c1, c2] ∧ isDig c1 = true ∧ isDig c2 = true) := by
  cases h with
  | seq h1 h2 =>
    cases h1 with
    | cc hc =>
      cases h2 with
      | optSome h3 =>
        cases h3 with
        | cc hc2 => exact Or.inr ⟨_, _, rfl, hc, hc2⟩
      | optNone => exact Or.inl ⟨_, rfl, hc⟩

theorem lang_str_dash {v : List Char} (h : Lang (.str ['-'] false) v) : v = ['-'] := by
  cases h with
  | str hs =>
    cases v with
    | nil => simp [strChomp] at hs
    | cons c v2 =>
      simp only [strChomp] at hs
      by_cases hc : chEq false '-' c = true
      · rw [if_pos hc] at hs
        have hv2 : v2 = [] := by simpa [strChomp] using hs
        have hcd : '-' = c := by simpa [chEq] using hc
        rw [hv2, ← hcd]
      · rw [if_neg hc] at hs
        simp at hs

theorem lang_setTok {u : List Char} (h : Lang setTok u) :
    IsSetTokB u = true ∧ SpcFree u ∧ u ≠ [] := by
  have hdig : ∀ {c : Char}, isDig c = true → isSpc c = false := fun h => isDig_not_spc h
  cases h with
  | @seq a b u1 u2 h1 h2 =>
    cases h2 with
    | @seq a2 b2 v w hdash hb =>
      have hv := lang_str_dash hdash
      subst hv
      rcases lang_d12 h1 with ⟨c, rfl, hc⟩ | ⟨c1, c2, rfl, hc1, hc2⟩ <;>
        rcases lang_d12 hb with ⟨e, rfl, he⟩ | ⟨e1, e2, rfl, he1, he2⟩
      · refine ⟨?_, ?_, by simp⟩
        · simp [IsSetTokB, List.takeWhile, List.dropWhile, hc, he,
            (by decide : isDig '-' = false)]
        · intro x hx
          rcases (by simpa using hx : x = c ∨ x = '-' ∨ x = e) with rfl | rfl | rfl
          · exact hdig hc
          · decide
          · exact hdig he
      · refine ⟨?_, ?_, by simp⟩
        · simp [IsSetTokB, List.takeWhile, List.dropWhile, hc, he1, he2,
            (by decide : isDig '-' = false)]
        · intro x hx
          rcases (by simpa using hx : x = c ∨ x = '-' ∨ x = e1 ∨ x = e2) with
            rfl | rfl | rfl | rfl
          · exact hdig hc
          · decide
          · exact hdig he1
          · exact hdig he2
      · refine ⟨?_, ?_, by simp⟩
        · simp [IsSetTokB, List.takeWhile, List.dropWhile, hc1, hc2, he,
            (by decide : isDig '-' = false)]
        · intro x hx
          rcases (by simpa using hx : x = c1 ∨ x = c2 ∨ x = '-' ∨ x = e) with
            rfl | rfl | rfl | rfl
          · exact hdig hc1
          · exact hdig hc2
          · decide
          · exact hdig he
      · refine ⟨?_, ?_, by simp⟩
        · simp [IsSetTokB, List.takeWhile, List.dropWhile, hc1, hc2, he1, he2,
            (by decide : isDig '-' = false)]
        · intro x hx
          rcases (by simpa using hx : x = c1 ∨ x = c2 ∨ x = '-' ∨ x = e1 ∨ x = e2) with
            rfl | rfl | rfl | rfl | rfl
          · exact hdig hc1
          · exact hdig hc2
          · decide
          · exact hdig he1
          · exact hdig he2

theorem lang_star_wsp : ∀ {r : RE} {v : List Char}, Lang r v →
    r = .starG (.cc .wsp) → AllSpc v := by
  intro r v h
  induction h
  all_goals intro he
  case starGNil => intro c hc; simp at hc
  case starGCons a u v2 h1 h2 ih1 ih2 =>
    injection he with ha
    subst ha
    intro c hc
    rcases List.mem_append.mp hc with h3 | h3
    · cases h1 with
      | @cc cl d hm =>
        have hcd : c = d := by simpa using h3
        rw [hcd]
        exact hm
    · exact ih2 rfl c h3
  all_goals simp at he

theorem lang_wspP {w : List Char} (h : Lang wspP w) : AllSpc w ∧ w ≠ [] := by
  cases h with
  | @seq a b u v h1 h2 =>
    cases h1 with
    | cc hm =>
      refine ⟨?_, by simp⟩
      intro c hc
      rcases List.mem_cons.mp hc with h3 | h3
      · rw [h3]; exact hm
      · exact lang_star_wsp h2 rfl c h3

theorem mem_of_head? {c : Char} {l : List Char} (h : l.head? = some c) : c ∈ l := by
  cases l with
  | nil => simp at h
  | cons a rest =>
    have : a = c := by simpa using h
    rw [← this]
    exact List.mem_cons_self _ _

theorem mem_of_getLast? {c : Char} : ∀ {l : List Char}, l.getLast? = some c → c ∈ l := by
  intro l
  induction l with
  | nil => intro h; simp at h
  | cons a rest ih =>
    intro h
    cases rest with
    | nil =>
      have : a = c := by simpa using h
      rw [← this]
      exact List.mem_cons_self _ _
    | cons b rest2 =>
      rw [List.getLast?_cons_cons] at h
      exact List.mem_cons_of_mem _ (ih h)

theorem pyStrip_spcfree {t : List Char} (h : SpcFree t) : pyStrip t = t :=
  pyStrip_id (fun c hc => h c (mem_of_head? hc)) (fun c hc => h c (mem_of_getLast? hc))

theorem head?_nospc_append {t z : List Char} (ht : SpcFree t) (htne : t ≠ []) :
    ∀ c, (t ++ z).head? = some c → isSpc c = false := by
  cases t with
  | nil => exact absurd rfl htne
  | cons a t2 =>
    intro c hc
    have : a = c := by simpa using hc
    rw [← this]
    exact ht a (List.mem_cons_self _ _)

theorem pyStrip_of_sandwich {t0 mid t1 : List Char} (h0 : SpcFree t0) (hn0 : t0 ≠ [])
    (h1 : SpcFree t1) (hn1 : t1 ≠ []) :
    pyStrip (t0 ++ mid ++ t1) = t0 ++ mid ++ t1 := by
  refine pyStrip_id ?_ ?_
  · intro c hc
    rw [List.append_assoc] at hc
    exact head?_nospc_append h0 hn0 c hc
  · intro c hc
    rw [List.getLast?_append] at hc
    cases hl : t1.getLast? with
    | none =>
      exfalso
      rcases List.exists_cons_of_ne_nil hn1 with ⟨x, xs, rfl⟩
      rw [List.getLast?_cons] at hl
      simp at hl
    | some x =>
      rw [hl] at hc
      have : x = c := by simpa [Option.or] using hc
      rw [← this]
      exact h1 x (mem_of_getLast? hl)

theorem collapseWS_nospc_append {x z : List Char} (h : SpcFree x) :
    collapseWS (x ++ z) = x ++ collapseWS z := by
  induction x with
  | nil => simp
  | cons a x2 ih =>
    simp only [List.cons_append, collapseWS, List.append_eq]
    rw [if_neg (by simp [h a (List.mem_cons_self _ _)])]
    rw [ih (fun c hc => h c (List.mem_cons_of_mem _ hc))]

theorem collapseWS_nospc {l : List Char} (h : SpcFree l) : collapseWS l = l := by
  have hx := collapseWS_nospc_append (z := []) h
  rw [List.append_nil] at hx
  rw [hx]
  have : collapseWS [] = [] := rfl
  rw [this, List.append_nil]

theorem collapseSkip_spc_append {w z : List Char} (hw : AllSpc w)
    (hz : ∀ c, z.head? = some c → isSpc c = false) :
    collapseSkip (w ++ z) = collapseWS z := by
  induction w with
  | nil =>
    cases z with
    | nil => rfl
    | cons d z2 =>
      have hd := hz d rfl
      simp only [List.nil_append, collapseSkip, collapseWS]
      rw [if_neg (by simp [hd]), if_neg (by simp [hd])]
  | cons a w2 ih =>
    simp only [List.cons_append, collapseSkip]
    rw [if_pos (hw a (List.mem_cons_self _ _))]
    exact ih (fun c hc => hw c (List.mem_cons_of_mem _ hc))

theorem collapseWS_spc_append {w z : List Char} (hw : AllSpc w) (hwne : w ≠ [])
    (hz : ∀ c, z.head? = some c → isSpc c = false) :
    collapseWS (w ++ z) = ' ' :: collapseWS z := by
  cases w with
  | nil => exact absurd rfl hwne
  | cons a w2 =>
    simp only [List.cons_append, collapseWS, List.append_eq]
    rw [if_pos (hw a (List.mem_cons_self _ _))]
    rw [collapseSkip_spc_append (fun c hc => hw c (List.mem_cons_of_mem _ hc)) hz]

theorem collapse_tok_sep {t w z : List Char} (hts : SpcFree t) (_ : t ≠ [])
    (hws : AllSpc w) (hwn : w ≠ [])
    (hz : ∀ c, z.head? = some c → isSpc c = false) :
    collapseWS (t ++ (w ++ z)) = t ++ ' ' :: collapseWS z := by
  rw [collapseWS_nospc_append hts, collapseWS_spc_append hws hwn hz]

theorem setTokB_ne_nil {t : List Char} (h : IsSetTokB t = true) : t ≠ [] := by
  intro hn
  rw [hn] at h
  simp [IsSetTokB] at h

theorem joinSpace_cons_ne {t0 : List Char} {rest : List (List Char)} (hn0 : t0 ≠ []) :
    joinSpace (t0 :: rest) ≠ [] := by
  cases rest with
  | nil => simpa [joinSpace] using hn0
  | cons t1 r2 =>
    simp only [joinSpace]
    intro hcon
    rcases List.append_eq_nil.mp hcon with ⟨_, h2⟩
    simp at h2

theorem pyStrip_of_sandwich2 {t0 mid t1 : List Char} (h0 : SpcFree t0) (hn0 : t0 ≠ [])
    (h1 : SpcFree t1) (hn1 : t1 ≠ []) :
    pyStrip (t0 ++ (mid ++ t1)) = t0 ++ (mid ++ t1) := by
  have := @pyStrip_of_sandwich t0 mid t1 h0 hn0 h1 hn1
  simpa [List.append_assoc] using this

theorem lang_scores_shape {cap : List Char} (h : Lang scoresBody cap) :
    ∃ toks : List (List Char), toks ≠ [] ∧ toks.length ≤ 4 ∧
      (∀ t ∈ toks, IsSetTokB t = true) ∧
      collapseWS (pyStrip cap) = joinSpace toks ∧ joinSpace toks ≠ [] := by
  cases h with
  | @seq a b t0 r0 h0 hrest =>
    rcases lang_setTok h0 with ⟨ht0, hs0, hn0⟩
    cases hrest with
    | optNone =>
      refine ⟨[t0], by simp, by simp, by simp [ht0], ?_, joinSpace_cons_ne hn0⟩
      rw [List.append_nil, pyStrip_spcfree hs0, collapseWS_nospc hs0]
      simp [joinSpace]
    | optSome h1 =>
      cases h1 with
      | @seq a2 b2 s1 r1 hsep1 hrest1 =>
        cases hsep1 with
        | @seq a3 b3 w1 t1 hw1 ht1g =>
          rcases lang_wspP hw1 with ⟨hws1, hwn1⟩
          rcases lang_setTok ht1g with ⟨ht1, hs1, hn1⟩
          cases hrest1 with
          | optNone =>
            refine ⟨[t0, t1], by simp, by simp, by simp [ht0, ht1], ?_,
              joinSpace_cons_ne hn0⟩
            have hz : ∀ c, t1.head? = some c → isSpc c = false :=
              fun c hc => hs1 c (mem_of_head? hc)
            have hps : pyStrip (t0 ++ ((w1 ++ t1) ++ [])) = t0 ++ (w1 ++ t1) := by
              have := @pyStrip_of_sandwich2 t0 w1 t1 hs0 hn0 hs1 hn1
              simpa using this
            rw [hps, collapse_tok_sep hs0 hn0 hws1 hwn1 hz, collapseWS_nospc hs1]
            simp [joinSpace]
          | optSome h2 =>
            cases h2 with
            | @seq a4 b4 s2 r2 hsep2 hrest2 =>
              cases hsep2 with
              | @seq a5 b5 w2 t2 hw2 ht2g =>
                rcases lang_wspP hw2 with ⟨hws2, hwn2⟩
                rcases lang_setTok ht2g with ⟨ht2, hs2, hn2⟩
                cases hrest2 with
                | optNone =>
                  refine ⟨[t0, t1, t2], by simp, by simp, by simp [ht0, ht1, ht2], ?_,
                    joinSpace_cons_ne hn0⟩
                  have hz2 : ∀ c, t2.head? = some c → isSpc c = false :=
                    fun c hc => hs2 c (mem_of_head? hc)
                  have hz1 : ∀ c, (t1 ++ (w2 ++ t2)).head? = some c → isSpc c = false :=
                    head?_nospc_append hs1 hn1
                  have hps : pyStrip (t0 ++ ((w1 ++ t1) ++ ((w2 ++ t2) ++ []))) =
                      t0 ++ (w1 ++ (t1 ++ (w2 ++ t2))) := by
                    have := @pyStrip_of_sandwich2 t0 (w1 ++ (t1 ++ w2)) t2 hs0 hn0 hs2 hn2
                    simpa [List.append_assoc] using this
                  rw [hps]
                  rw [collapse_tok_sep hs0 hn0 hws1 hwn1 hz1,
                    collapse_tok_sep hs1 hn1 hws2 hwn2 hz2, collapseWS_nospc hs2]
                  simp [joinSpace]
                | optSome h3 =>
                  cases h3 with
                  | @seq a6 b6 w3 t3 hw3 ht3g =>
                    rcases lang_wspP hw3 with ⟨hws3, hwn3⟩
                    rcases lang_setTok ht3g with ⟨ht3, hs3, hn3⟩
                    refine ⟨[t0, t1, t2, t3], by simp, by simp,
                      by simp [ht0, ht1, ht2, ht3], ?_, joinSpace_cons_ne hn0⟩
                    have hz3 : ∀ c, t3.head? = some c → isSpc c = false :=
                      fun c hc => hs3 c (mem_of_head? hc)
                    have hz2 : ∀ c, (t2 ++ (w3 ++ t3)).head? = some c → isSpc c = false :=
                      head?_nospc_append hs2 hn2
                    have hz1 : ∀ c, (t1 ++ (w2 ++ (t2 ++ (w3 ++ t3)))).head? = some c →
                        isSpc c = false :=
                      head?_nospc_append hs1 hn1
                    have hps : pyStrip (t0 ++ ((w1 ++ t1) ++ ((w2 ++ t2) ++ (w3 ++ t3)))) =
                        t0 ++ (w1 ++ (t1 ++ (w2 ++ (t2 ++ (w3 ++ t3))))) := by
                      have := @pyStrip_of_sandwich2
                        t0 (w1 ++ (t1 ++ (w2 ++ (t2 ++ w3)))) t3 hs0 hn0 hs3 hn3
                      simpa [List.append_assoc] using this
                    rw [hps]
                    rw [collapse_tok_sep hs0 hn0 hws1 hwn1 hz1,
                      collapse_tok_sep hs1 hn1 hws2 hwn2 hz2,
                      collapse_tok_sep hs2 hn2 hws3 hwn3 hz3,
                      collapseWS_nospc hs3]
                    simp [joinSpace]

theorem mem_all_body {g : Nat} {body a : RE} :
    ∀ l : List (Nat × RE),
      l.all (fun q => decide (q.1 ≠ g) || decide (q.2 = body)) = true →
      (g, a) ∈ l → a = body := by
  intro l hall hm
  have h2 := List.all_eq_true.mp hall _ hm
  simpa using h2

theorem glookup_scores {p : RE} {cs : List Char} {gs : Groups} {rest : List Char} {g : Nat}
    (h : searchML p cs = some (gs, rest)) (hm : g ∈ mandGrps p)
    (hb : ∀ a, (g, a) ∈ grpBodies p → a = scoresBody) :
    ∃ t, glookup g gs = some t ∧ Lang scoresBody t := by
  rcases findSome?_eq_some_split (tryAtEol p) (lineStarts cs) _
      (by simpa [searchML] using h) with ⟨pre, a, post, _, _, ha⟩
  rcases tryAtEol_sound ha with ⟨u, _, _, _, hC, hM⟩
  rcases hM g hm with ⟨t0, hmem⟩
  rcases glookup_of_mem gs hmem with ⟨t, hg⟩
  have hmem2 := glookup_mem gs hg
  have hcap := hC (g, t) hmem2
  rcases gcap_bodies hcap with ⟨bdy, hbm, hlang⟩
  exact ⟨t, hg, (hb bdy hbm) ▸ hlang⟩

theorem try_parse_line_score {d : Defaults} {cand : List Char} {r : MatchRow}
    (h : try_parse_line d cand = some r) :
    ∃ sc, r.score = some sc ∧ ScoreShape sc := by
  simp only [try_parse_line] at h
  by_cases hblank : pyStrip cand = []
  · rw [if_pos hblank] at h
    exact absurd h (by simp)
  · rw [if_neg hblank] at h
    cases h1 : searchML singleRE (pyStrip cand) with
    | some pr =>
      obtain ⟨gs, rest⟩ := pr
      rw [h1] at h
      have hr : mkTypedRow d ("Simple".data) gs = r := by simpa using h
      rcases @glookup_scores singleRE (pyStrip cand) gs rest 4 h1 (by decide)
        (fun a ha => mem_all_body (grpBodies singleRE) (by decide) ha) with ⟨t, hg, hlang⟩
      rcases lang_scores_shape hlang with ⟨toks, hne, hlen, htok, hcol, hjne⟩
      refine ⟨joinSpace toks, ?_, toks, hne, hlen, htok, rfl⟩
      rw [← hr]
      simp only [mkTypedRow, scoreField, hg, Option.getD_some]
      rw [hcol, if_neg hjne]
    | none =>
      rw [h1] at h
      cases h2 : searchML doubleRE (pyStrip cand) with
      | some pr =>
        obtain ⟨gs, rest⟩ := pr
        rw [h2] at h
        have hr : mkTypedRow d ("Double".data) gs = r := by simpa using h
        rcases @glookup_scores doubleRE (pyStrip cand) gs rest 4 h2 (by decide)
          (fun a ha => mem_all_body (grpBodies doubleRE) (by decide) ha) with ⟨t, hg, hlang⟩
        rcases lang_scores_shape hlang with ⟨toks, hne, hlen, htok, hcol, hjne⟩
        refine ⟨joinSpace toks, ?_, toks, hne, hlen, htok, rfl⟩
        rw [← hr]
        simp only [mkTypedRow, scoreField, hg, Option.getD_some]
        rw [hcol, if_neg hjne]
      | none =>
        rw [h2] at h
        cases h3 : searchML tableRE (pyStrip cand) with
        | some pr =>
          obtain ⟨gs, rest⟩ := pr
          rw [h3] at h
          have hr : mkTableRow d gs = r := by simpa using h
          rcases @glookup_scores tableRE (pyStrip cand) gs rest 3 h3 (by decide)
            (fun a ha => mem_all_body (grpBodies tableRE) (by decide) ha) with ⟨t, hg, hlang⟩
          rcases lang_scores_shape hlang with ⟨toks, hne, hlen, htok, hcol, hjne⟩
          refine ⟨joinSpace toks, ?_, toks, hne, hlen, htok, rfl⟩
          rw [← hr]
          simp only [mkTableRow, scoreField, hg, Option.getD_some]
          rw [hcol, if_neg hjne]
        | none =>
          rw [h3] at h
          exact absurd h (by simp)

theorem firstParse_mem {d : Defaults} {r : MatchRow} :
    ∀ cs : List (List Char), firstParse d cs = some r →
      ∃ c ∈ cs, try_parse_line d c = some r := by
  intro cs
  induction cs with
  | nil => intro h; simp [firstParse] at h
  | cons c cs ih =>
    intro h
    simp only [firstParse] at h
    cases hc : try_parse_line d c with
    | some r2 =>
      rw [hc] at h
      have hr2 : r2 = r := by simpa using h
      exact ⟨c, List.mem_cons_self _ _, hr2 ▸ hc⟩
    | none =>
      rw [hc] at h
      rcases ih (by simpa using h) with ⟨c2, hm, hp⟩
      exact ⟨c2, List.mem_cons_of_mem _ hm, hp⟩

/-- C9: every MatchRow produced by the Line Pattern Matcher
(`parse_matches`) or by the Table Reconstructor
(`parse_matches_from_tables`) has a non-null score of the shape
`digit{1,2}-digit{1,2}` tokens, one to four of them, joined by single
spaces. -/
theorem score_shape_invariant :
    (∀ (text : List Char) (d : Defaults) (r : MatchRow),
        r ∈ parse_matches text d → ∃ sc, r.score = some sc ∧ ScoreShape sc) ∧
    (∀ (tables : List (List RawRow)) (d : Defaults) (r : MatchRow),
        r ∈ parse_matches_from_tables tables d →
          ∃ sc, r.score = some sc ∧ ScoreShape sc) := by
  constructor
  · intro text d r hmem
    have hmem2 : r ∈ dedupGo [] (collectRows d (splitLines text)) := hmem
    have h1 := mem_of_mem_dedupGo hmem2
    rw [collectRows_eq_filterMap] at h1
    rcases List.mem_filterMap.mp h1 with ⟨l, _, hp⟩
    exact try_parse_line_score hp
  · intro tables d r hmem
    have hmem2 : r ∈ dedupGo []
        ((tables.map (fun tbl => tbl.filterMap (rowFromCells d))).flatten) := hmem
    have h1 := mem_of_mem_dedupGo hmem2
    rcases List.mem_flatten.mp h1 with ⟨tb, htb, hr⟩
    rcases List.mem_map.mp htb with ⟨tbl, _, htbl⟩
    rw [← htbl] at hr
    rcases List.mem_filterMap.mp hr with ⟨raw, _, hrow⟩
    simp only [rowFromCells] at hrow
    by_cases hcell : cellsOf raw = []
    · rw [if_pos hcell] at hrow
      exact absurd hrow (by simp)
    · rw [if_neg hcell] at hrow
      rcases firstParse_mem _ hrow with ⟨c, _, hp⟩
      exact try_parse_line_score hp

/-- A concrete row produced by the Line Pattern Matcher on a one-line
table-style input. -/
def c9row : MatchRow :=
  { date := none, lieu := none, equipe_dom := none, equipe_ext := none,
    match_type := none, match_index := none,
    joueur_dom := some ("A".data), joueur_ext := some ("B".data),
    score := some ("6-1".data) }

theorem score_shape_invariant_witness :
    ∃ sc, c9row.score = some sc ∧ ScoreShape sc :=
  score_shape_invariant.1 ("A - B 6-1".data) (none, none, none, none) c9row
    (by
      rw [show parse_matches ("A - B 6-1".data) (none, none, none, none) = [c9row] from rfl]
      exact List.mem_singleton.mpr rfl)
